import Mathlib

/-!
Verification of the day-10 pursuit-game outcome counter (`Game` in
`src/day_10.rs`).

The Rust code is embedded shallowly:

* `Pos`, `Board` mirror the corresponding structs; the `Vec<bool>` grids
  become `List Bool` indexed through `Pos.into_index`.
* The `DragonMoves` iterator becomes `Board.dragon_move_list`, a
  `List.filterMap` over the fixed offset table.
* `Game::sheep_moves` / `Game::dragon_moves` mutate `self.dragon`,
  `self.sheep` and the memo table in place; they are embedded as the
  state-passing function `Game.moves`, which threads the `Game` record and
  the cache explicitly and is indexed by fuel (the Rust recursion has no
  structural decreasing argument; termination is proved separately through
  the measure `gmeasure`).  The `u8` sentinel `99` for a removed sheep and
  for a fully blocked column is kept as the literal `99 : Nat`.
* `Game.plain_moves` is the same recursion with the transposition cache
  stripped out; it is the reference semantics the memoized code is proved
  equivalent to.
-/

namespace Day10

/-- `Pos` from the source (row-major `u8` pair, modelled over `Nat`). -/
structure Pos where
  row : Nat
  col : Nat
deriving DecidableEq, Repr

/-- `Pos::into_index`. -/
def Pos.into_index (p : Pos) (width : Nat) : Nat :=
  p.row * width + p.col

/-- `Board` from the source. -/
structure Board where
  width : Nat
  height : Nat
  dragon : Pos
  sheep : List Bool
  blocked : List Bool
deriving DecidableEq, Repr

/-- `Board::has_sheep_at`. -/
def Board.has_sheep_at (b : Board) (p : Pos) : Bool :=
  b.sheep.getD (p.into_index b.width) false

/-- `Board::is_blocked`. -/
def Board.is_blocked (b : Board) (p : Pos) : Bool :=
  b.blocked.getD (p.into_index b.width) false

/-- The `MOVES` offset table of the `DragonMoves` iterator, as
`(column offset, row offset)` pairs, in source order. -/
def knight_offsets : List (Int × Int) :=
  [(-1, -2), (1, -2), (-2, -1), (2, -1), (-2, 1), (2, 1), (-1, 2), (1, 2)]

/-- The `DragonMoves` iterator (`Board::dragon_moves`), collected into a
list: each offset is applied to the origin and kept when the result lies in
`[0, width) x [0, height)`. -/
def Board.dragon_move_list (b : Board) (origin : Pos) : List Pos :=
  knight_offsets.filterMap fun m =>
    let c1 : Int := (origin.col : Int) + m.1
    let r1 : Int := (origin.row : Int) + m.2
    if 0 ≤ c1 ∧ c1 < (b.width : Int) ∧ 0 ≤ r1 ∧ r1 < (b.height : Int) then
      some ⟨r1.toNat, c1.toNat⟩
    else none

/-- `Game` from the source: the board reference plus the mutable dragon
position, per-column sheep rows (`99` = removed) and per-column safe
thresholds. -/
structure Game where
  board : Board
  dragon : Pos
  sheep : List Nat
  safe : List Nat
deriving DecidableEq, Repr

/-- The sheep vector built in `Game::new`: for each column, the first row
holding a sheep, else `99`. -/
def Game.mk_sheep (b : Board) : List Nat :=
  (List.range b.width).map fun c =>
    (((List.range b.height).find? fun r => b.has_sheep_at ⟨r, c⟩).getD 99)

/-- The safe vector built in `Game::new`: for each column, the first `r` of
`height, height-1, ..., 1` whose cell `(r-1, c)` is unblocked, else `99`. -/
def Game.mk_safe (b : Board) : List Nat :=
  (List.range b.width).map fun c =>
    ((((List.range b.height).reverse.map (· + 1)).find? fun r =>
      !b.is_blocked ⟨r - 1, c⟩).getD 99)

/-- `Game::new`. -/
def Game.new (b : Board) : Game :=
  ⟨b, b.dragon, Game.mk_sheep b, Game.mk_safe b⟩

/-- `Game::has_sheep_at` (note: reads the per-column row vector, not the
board grid). -/
def Game.has_sheep_at (g : Game) (p : Pos) : Bool :=
  decide (g.sheep.getD p.col 99 = p.row)

/-- `Game::is_safe` against an explicit safe vector. -/
def is_safe_v (safe : List Nat) (p : Pos) : Bool :=
  decide (safe.getD p.col 99 ≤ p.row)

/-- `Game::is_safe`. -/
def Game.is_safe (g : Game) (p : Pos) : Bool :=
  is_safe_v g.safe p

/-- `CacheKey` from the source: `(dragon_turn, dragon, sheep)`. -/
abbrev CacheKey := Bool × Pos × List Nat

/-- The transposition table, as an association list; `cache_insert` conses,
so a later insertion for the same key shadows an earlier one, matching
`HashMap::insert`. -/
abbrev Cache := List (CacheKey × Nat)

/-- `HashMap::get`. -/
def cache_lookup (seen : Cache) (k : CacheKey) : Option Nat :=
  (seen.find? fun e => decide (e.1 = k)).map (·.2)

/-- `HashMap::insert`. -/
def cache_insert (seen : Cache) (k : CacheKey) (v : Nat) : Cache :=
  (k, v) :: seen

/-- `Game::cache_key`. -/
def Game.cache_key (g : Game) (dragon_turn : Bool) : CacheKey :=
  (dragon_turn, g.dragon, g.sheep)

/-- One iteration of the column loop in `Game::sheep_moves`, acting on the
accumulator `(count, any_move, self, seen)`.  `recurse` is the call into
`Game::dragon_moves` at the next depth. -/
def Game.sheep_step (recurse : Game → Cache → Nat × Game × Cache)
    (acc : Nat × Bool × Game × Cache) (c : Nat) : Nat × Bool × Game × Cache :=
  let count := acc.1
  let g := acc.2.2.1
  let seen := acc.2.2.2
  let r := g.sheep.getD c 99
  if r = 99 then acc
  else
    let r1 := r + 1
    let pos1 : Pos := ⟨r1, c⟩
    if pos1 = g.dragon ∧ g.board.is_blocked pos1 = false then acc
    else if r1 = g.board.height ∨ g.is_safe pos1 = true then (count, true, g, seen)
    else
      let res := recurse { g with sheep := g.sheep.set c r1 } seen
      (count + res.1, true, { res.2.1 with sheep := res.2.1.sheep.set c r }, res.2.2)

/-- One iteration of the knight-move loop in `Game::dragon_moves`, acting on
the accumulator `(count, self, seen)`.  `recurse` is the call into
`Game::sheep_moves` at the next depth. -/
def Game.dragon_step (recurse : Game → Cache → Nat × Game × Cache)
    (acc : Nat × Game × Cache) (pos1 : Pos) : Nat × Game × Cache :=
  let count := acc.1
  let g0 := acc.2.1
  let seen := acc.2.2
  let g := { g0 with dragon := pos1 }
  if g.board.is_blocked pos1 = false ∧ g.has_sheep_at pos1 = true then
    let res := recurse { g with sheep := g.sheep.set pos1.col 99 } seen
    (count + res.1, { res.2.1 with sheep := res.2.1.sheep.set pos1.col pos1.row }, res.2.2)
  else
    let res := recurse g seen
    (count + res.1, res.2.1, res.2.2)

/-- The mutually recursive pair `Game::dragon_moves` (phase `true`) /
`Game::sheep_moves` (phase `false`), with the in-place mutation of
`self.dragon` / `self.sheep` made explicit by threading the `Game` record,
and the memo table threaded alongside.  The first argument is fuel; the Rust
functions correspond to any sufficiently large fuel (see the termination
measure below). -/
def Game.moves : Nat → Bool → Game → Cache → Nat × Game × Cache
  | 0, _, g, seen => (0, g, seen)
  | n + 1, true, g, seen =>
    let key := g.cache_key true
    match cache_lookup seen key with
    | some v => (v, g, seen)
    | none =>
      let pos := g.dragon
      let res := (g.board.dragon_move_list g.dragon).foldl
        (Game.dragon_step fun g1 ch => Game.moves n false g1 ch) (0, g, seen)
      (res.1, { res.2.1 with dragon := pos }, cache_insert res.2.2 key res.1)
  | n + 1, false, g, seen =>
    let key := g.cache_key false
    match cache_lookup seen key with
    | some v => (v, g, seen)
    | none =>
      if g.sheep.all (· == 99) then (1, g, seen)
      else
        let res := (List.range g.board.width).foldl
          (Game.sheep_step fun g1 ch => Game.moves n true g1 ch) (0, false, g, seen)
        let res2 :=
          if res.2.1 then (res.1, res.2.2.1, res.2.2.2)
          else
            let d := Game.moves n true res.2.2.1 res.2.2.2
            (res.1 + d.1, d.2.1, d.2.2)
        (res2.1, res2.2.1, cache_insert res2.2.2 key res2.1)

/-- `Game::dragon_moves`. -/
def Game.dragon_moves (n : Nat) (g : Game) (seen : Cache) : Nat × Game × Cache :=
  Game.moves n true g seen

/-- `Game::sheep_moves`. -/
def Game.sheep_moves (n : Nat) (g : Game) (seen : Cache) : Nat × Game × Cache :=
  Game.moves n false g seen

/-- The column loop of `Game::sheep_moves` in isolation. -/
def Game.sheep_loop (n : Nat) (g : Game) (seen : Cache) : Nat × Bool × Game × Cache :=
  (List.range g.board.width).foldl
    (Game.sheep_step fun g1 ch => Game.moves n true g1 ch) (0, false, g, seen)

/-! ## The cache-free reference recursion

`plain_moves` is `Game.moves` with the transposition cache deleted and the
(always restored, see `moves_state_id`) in-place state mutation replaced by
explicit arguments.  It is the semantics the memoized search is proved
equivalent to. -/

/-- One column of the cache-free sheep turn; `rec1` is the recursive call
into the dragon turn with the updated sheep vector. -/
def plain_sheep_step (b : Board) (safe : List Nat) (dragon : Pos) (sheep : List Nat)
    (rec1 : List Nat → Nat) (acc : Nat × Bool) (c : Nat) : Nat × Bool :=
  let r := sheep.getD c 99
  if r = 99 then acc
  else
    let r1 := r + 1
    let pos1 : Pos := ⟨r1, c⟩
    if pos1 = dragon ∧ b.is_blocked pos1 = false then acc
    else if r1 = b.height ∨ is_safe_v safe pos1 = true then (acc.1, true)
    else (acc.1 + rec1 (sheep.set c r1), true)

/-- One knight move of the cache-free dragon turn; `rec1` is the recursive
call into the sheep turn at the new dragon position. -/
def plain_dragon_step (b : Board) (sheep : List Nat)
    (rec1 : Pos → List Nat → Nat) (count : Nat) (pos1 : Pos) : Nat :=
  if b.is_blocked pos1 = false ∧ sheep.getD pos1.col 99 = pos1.row then
    count + rec1 pos1 (sheep.set pos1.col 99)
  else
    count + rec1 pos1 sheep

/-- The cache-free mutual recursion (phase `true` = dragon turn). -/
def plain_moves (b : Board) (safe : List Nat) : Nat → Bool → Pos → List Nat → Nat
  | 0, _, _, _ => 0
  | n + 1, true, dragon, sheep =>
    (b.dragon_move_list dragon).foldl
      (plain_dragon_step b sheep fun p1 s1 => plain_moves b safe n false p1 s1) 0
  | n + 1, false, dragon, sheep =>
    if sheep.all (· == 99) then 1
    else
      let res := (List.range b.width).foldl
        (plain_sheep_step b safe dragon sheep fun s1 => plain_moves b safe n true dragon s1)
        (0, false)
      if res.2 then res.1 else res.1 + plain_moves b safe n true dragon sheep

/-! ## Termination measure and state invariant -/

/-- Weight of one sheep entry: `0` once removed, else its distance to the
bottom of the board. -/
def sheepW (height r : Nat) : Nat :=
  if r = 99 then 0 else height - r

/-- Total sheep weight of a state. -/
def mu (height : Nat) (sheep : List Nat) : Nat :=
  (sheep.map (sheepW height)).sum

/-- The cell directly below the sheep of column `c`. -/
def dest_pos (sheep : List Nat) (c : Nat) : Pos :=
  ⟨sheep.getD c 99 + 1, c⟩

/-- Column `c` is skipped by the sheep loop: its destination is the dragon's
cell and that cell is unblocked. -/
def col_skip (b : Board) (dragon : Pos) (sheep : List Nat) (c : Nat) : Bool :=
  decide (dest_pos sheep c = dragon) && !b.is_blocked (dest_pos sheep c)

/-- Column `c` is live and not excluded by `col_skip`: it counts toward the
`any_move` flag of the sheep loop. -/
def col_move (b : Board) (dragon : Pos) (sheep : List Nat) (c : Nat) : Bool :=
  !(sheep.getD c 99 == 99) && !col_skip b dragon sheep c

/-- Some live column has a destination not excluded by `col_skip` (the
`any_move` flag of the sheep loop). -/
def any_move_b (b : Board) (dragon : Pos) (sheep : List Nat) : Bool :=
  (List.range b.width).any (col_move b dragon sheep)

/-- All sheep removed. -/
def terminal_b (sheep : List Nat) : Bool :=
  sheep.all (· == 99)

/-- A live, non-terminal sheep-turn position in which no column may move:
exactly the situation triggering the double-move rule. -/
def blocked_state (b : Board) (dragon : Pos) (sheep : List Nat) : Bool :=
  !terminal_b sheep && !any_move_b b dragon sheep

/-- Phase rank: bounds the number of recursive calls that can happen before
the sheep weight strictly drops. -/
def rank (b : Board) (phase : Bool) (dragon : Pos) (sheep : List Nat) : Nat :=
  if phase then (if blocked_state b dragon sheep then 1 else 3)
  else (if blocked_state b dragon sheep then 2 else 0)

/-- The termination measure of the mutual recursion. -/
def gmeasure (b : Board) (phase : Bool) (dragon : Pos) (sheep : List Nat) : Nat :=
  4 * mu b.height sheep + rank b phase dragon sheep

/-- Invariant of reachable sheep vectors: one entry per column, and each
entry is either the removed sentinel `99` or an on-board row. -/
def inv_sheep (b : Board) (sheep : List Nat) : Prop :=
  sheep.length = b.width ∧ ∀ c < b.width, sheep.getD c 99 = 99 ∨ sheep.getD c 99 < b.height

instance (b : Board) (sheep : List Nat) : Decidable (inv_sheep b sheep) := by
  unfold inv_sheep; infer_instance

/-- A correct cache: every stored entry belongs to an invariant state and
stores the cache-free count of that state. -/
def tvalue (b : Board) (safe : List Nat) (phase : Bool) (dragon : Pos) (sheep : List Nat) : Nat :=
  plain_moves b safe (gmeasure b phase dragon sheep + 1) phase dragon sheep

/-- Every entry in the memo table is the true (cache-free) count of an
invariant state. -/
def cache_good (b : Board) (safe : List Nat) (seen : Cache) : Prop :=
  ∀ k v, cache_lookup seen k = some v →
    inv_sheep b k.2.2 ∧ v = tvalue b safe k.1 k.2.1 k.2.2

/-- `Game::count_winning_games`: run the sheep turn from the initial state
with an empty memo table.  The fuel is any value above the measure of the
initial state; stability above the measure is proved below. -/
def Game.count_winning_games (g : Game) : Nat :=
  (Game.moves (gmeasure g.board false g.dragon g.sheep + 1) false g []).1

/-- The call graph of the mutual recursion: `CallEdge b safe child parent`
holds when evaluating `parent` (phase, dragon, sheep) triggers a recursive
evaluation of `child`. -/
inductive CallEdge (b : Board) (safe : List Nat) :
    (Bool × Pos × List Nat) → (Bool × Pos × List Nat) → Prop where
  | prey_branch (dragon : Pos) (sheep : List Nat) (c : Nat) :
      c < b.width →
      terminal_b sheep = false →
      sheep.getD c 99 ≠ 99 →
      ¬(dest_pos sheep c = dragon ∧ b.is_blocked (dest_pos sheep c) = false) →
      ¬(sheep.getD c 99 + 1 = b.height ∨ is_safe_v safe (dest_pos sheep c) = true) →
      CallEdge b safe (true, dragon, sheep.set c (sheep.getD c 99 + 1)) (false, dragon, sheep)
  | prey_double (dragon : Pos) (sheep : List Nat) :
      terminal_b sheep = false →
      any_move_b b dragon sheep = false →
      CallEdge b safe (true, dragon, sheep) (false, dragon, sheep)
  | pred_capture (dragon : Pos) (sheep : List Nat) (p1 : Pos) :
      p1 ∈ b.dragon_move_list dragon →
      b.is_blocked p1 = false →
      sheep.getD p1.col 99 = p1.row →
      CallEdge b safe (false, p1, sheep.set p1.col 99) (true, dragon, sheep)
  | pred_plain (dragon : Pos) (sheep : List Nat) (p1 : Pos) :
      p1 ∈ b.dragon_move_list dragon →
      ¬(b.is_blocked p1 = false ∧ sheep.getD p1.col 99 = p1.row) →
      CallEdge b safe (false, p1, sheep) (true, dragon, sheep)

/-- The contribution of one column to the count of a sheep turn, with `F`
the recursive dragon-turn evaluation. -/
def sheep_contrib (b : Board) (safe : List Nat) (dragon : Pos) (sheep : List Nat)
    (F : List Nat → Nat) (c : Nat) : Nat :=
  let r := sheep.getD c 99
  if r = 99 then 0
  else if (⟨r + 1, c⟩ : Pos) = dragon ∧ b.is_blocked ⟨r + 1, c⟩ = false then 0
  else if r + 1 = b.height ∨ is_safe_v safe ⟨r + 1, c⟩ = true then 0
  else F (sheep.set c (r + 1))

/-- The contribution of one knight move to the count of a dragon turn, with
`F` the recursive sheep-turn evaluation. -/
def dragon_contrib (b : Board) (sheep : List Nat) (F : Pos → List Nat → Nat) (pos1 : Pos) : Nat :=
  if b.is_blocked pos1 = false ∧ sheep.getD pos1.col 99 = pos1.row then
    F pos1 (sheep.set pos1.col 99)
  else F pos1 sheep

/-- The safe threshold as the specification words it: the smallest row index
`r` such that every cell from `r` to `height - 1` of column `c` is
unblocked. -/
def spec_safe_threshold (b : Board) (c : Nat) : Nat :=
  (((List.range (b.height + 1)).find? fun r =>
    decide (∀ i, i < b.height → r ≤ i → b.is_blocked ⟨i, c⟩ = false)).getD 99)

/-! ## List helpers -/

theorem set_getD_self (l : List Nat) (c d : Nat) : l.set c (l.getD c d) = l := by
  induction l generalizing c with
  | nil => simp
  | cons a t ih =>
    cases c with
    | zero => simp
    | succ c => simpa using ih c

theorem getD_set_self (l : List Nat) (c v d : Nat) (hc : c < l.length) :
    (l.set c v).getD c d = v := by
  simp [List.getD_eq_getElem?_getD, List.getElem?_set_self hc]

theorem getD_set_ne (l : List Nat) (c c' v d : Nat) (h : c ≠ c') :
    (l.set c v).getD c' d = l.getD c' d := by
  simp [List.getD_eq_getElem?_getD, List.getElem?_set_ne h]

theorem getD_map_range {α : Type} (w c : Nat) (f : Nat → α) (d : α) (hc : c < w) :
    ((List.range w).map f).getD c d = f c := by
  simp [List.getD_eq_getElem?_getD, List.getElem?_map, List.getElem?_range hc]

/-- Summing a per-element function through a `foldl` that adds it. -/
theorem foldl_add_eq_sum {α : Type} (f : α → Nat) (l : List α) (a : Nat) :
    l.foldl (fun acc x => acc + f x) a = a + (l.map f).sum := by
  induction l generalizing a with
  | nil => simp
  | cons x t ih => simp [ih, Nat.add_assoc]

/-- A `foldl` over `Nat × Bool` whose step adds a contribution and ors a
flag decomposes into a sum and an `any`. -/
theorem foldl_add_or_eq {α : Type} (step : Nat × Bool → α → Nat × Bool)
    (f : α → Nat) (m : α → Bool)
    (hstep : ∀ acc x, step acc x = (acc.1 + f x, acc.2 || m x)) (l : List α) :
    ∀ a fl, l.foldl step (a, fl) = (a + (l.map f).sum, fl || l.any m) := by
  induction l with
  | nil => simp
  | cons x t ih => intro a fl; simp [hstep, ih, Nat.add_assoc, Bool.or_assoc]

/-! ## The knight-move list -/

theorem mem_dragon_move_list {b : Board} {origin p : Pos}
    (h : p ∈ b.dragon_move_list origin) :
    p.row < b.height ∧ p.col < b.width ∧ p.col ≠ origin.col := by
  simp only [Board.dragon_move_list, List.mem_filterMap, knight_offsets] at h
  obtain ⟨m, hm, hp⟩ := h
  split at hp
  · rename_i hcond
    obtain ⟨h1, h2, h3, h4⟩ := hcond
    cases hp
    dsimp only
    have hne : m.1 ≠ 0 := by
      fin_cases hm <;> simp_all
    refine ⟨by omega, by omega, ?_⟩
    intro hcol
    omega
  · cases hp

theorem dragon_move_list_iff (b : Board) (origin p : Pos) :
    p ∈ b.dragon_move_list origin ↔
      ∃ m ∈ knight_offsets, (p.col : Int) = (origin.col : Int) + m.1 ∧
        (p.row : Int) = (origin.row : Int) + m.2 ∧ p.col < b.width ∧ p.row < b.height := by
  simp only [Board.dragon_move_list, List.mem_filterMap]
  constructor
  · rintro ⟨m, hm, hp⟩
    split at hp
    · rename_i hcond
      obtain ⟨h1, h2, h3, h4⟩ := hcond
      cases hp
      dsimp only
      exact ⟨m, hm, by omega, by omega, by omega, by omega⟩
    · cases hp
  · rintro ⟨m, hm, h1, h2, h3, h4⟩
    refine ⟨m, hm, ?_⟩
    have e1 : (0 : Int) ≤ (origin.col : Int) + m.1 := by omega
    have e2 : (origin.col : Int) + m.1 < (b.width : Int) := by omega
    have e3 : (0 : Int) ≤ (origin.row : Int) + m.2 := by omega
    have e4 : (origin.row : Int) + m.2 < (b.height : Int) := by omega
    rw [if_pos ⟨e1, e2, e3, e4⟩]
    cases p
    simp_all
    omega

theorem dragon_move_list_length (b : Board) (origin : Pos) :
    (b.dragon_move_list origin).length ≤ 8 := by
  have := List.length_filterMap_le
    (fun m : Int × Int =>
      let c1 : Int := (origin.col : Int) + m.1
      let r1 : Int := (origin.row : Int) + m.2
      if 0 ≤ c1 ∧ c1 < (b.width : Int) ∧ 0 ≤ r1 ∧ r1 < (b.height : Int) then
        (some ⟨r1.toNat, c1.toNat⟩ : Option Pos)
      else none) knight_offsets
  simpa [Board.dragon_move_list, knight_offsets] using this

/-! ## Measure lemmas -/

theorem mu_set (h : Nat) (s : List Nat) (c v : Nat) (hc : c < s.length) :
    mu h (s.set c v) + sheepW h (s.getD c 99) = mu h s + sheepW h v := by
  induction s generalizing c with
  | nil => simp at hc
  | cons a t ih =>
    cases c with
    | zero => simp [mu]; omega
    | succ c =>
      have := ih c (by simpa using hc)
      simp only [List.set_cons_succ, List.getD_cons_succ, mu, List.map_cons, List.sum_cons] at *
      omega

theorem rank_lt_4 (b : Board) (ph : Bool) (d : Pos) (s : List Nat) : rank b ph d s < 4 := by
  unfold rank; split <;> split <;> omega

theorem inv_sheep_set (b : Board) (s : List Nat) (c v : Nat)
    (hinv : inv_sheep b s) (hv : v = 99 ∨ v < b.height) : inv_sheep b (s.set c v) := by
  obtain ⟨hlen, hentries⟩ := hinv
  refine ⟨by simpa using hlen, ?_⟩
  intro c' hc'
  by_cases hcc : c = c'
  · subst hcc
    rw [getD_set_self s c v 99 (by omega)]
    exact hv
  · rw [getD_set_ne s c c' v 99 hcc]
    exact hentries c' hc'

theorem meas_prey_branch (b : Board) (d : Pos) (s : List Nat) (c : Nat)
    (hlen : s.length = b.width) (hc : c < b.width)
    (hrh : s.getD c 99 < b.height) (hr : s.getD c 99 ≠ 99) :
    gmeasure b true d (s.set c (s.getD c 99 + 1)) < gmeasure b false d s := by
  have hmu := mu_set b.height s c (s.getD c 99 + 1) (by omega)
  have h1 : sheepW b.height (s.getD c 99 + 1) < sheepW b.height (s.getD c 99) := by
    unfold sheepW; rw [if_neg hr]; split <;> omega
  have h2 := rank_lt_4 b true d (s.set c (s.getD c 99 + 1))
  unfold gmeasure
  omega

theorem meas_prey_double (b : Board) (d : Pos) (s : List Nat)
    (hbs : blocked_state b d s = true) :
    gmeasure b true d s < gmeasure b false d s := by
  unfold gmeasure rank
  rw [hbs]
  simp

theorem meas_pred_capture (b : Board) (d p1 : Pos) (s : List Nat)
    (hlen : s.length = b.width) (hcol : p1.col < b.width) (hrow : p1.row < b.height)
    (hsheep : s.getD p1.col 99 = p1.row) (hr99 : p1.row ≠ 99) :
    gmeasure b false p1 (s.set p1.col 99) < gmeasure b true d s := by
  have hmu := mu_set b.height s p1.col 99 (by omega)
  have h1 : sheepW b.height 99 = 0 := by simp [sheepW]
  have h2 : 1 ≤ sheepW b.height (s.getD p1.col 99) := by
    rw [hsheep]; unfold sheepW; split <;> omega
  have h3 := rank_lt_4 b false p1 (s.set p1.col 99)
  have h4 := rank_lt_4 b true d s
  unfold gmeasure rank at *
  split at h4 <;> omega

theorem live_col_of_nonterminal (b : Board) (s : List Nat)
    (hlen : s.length = b.width) (ht : terminal_b s = false) :
    ∃ i < b.width, s.getD i 99 ≠ 99 := by
  unfold terminal_b at ht
  rcases List.exists_mem_of_ne_nil s (by rintro rfl; simp at ht) with _
  have : ¬ ∀ x ∈ s, x == 99 := by
    intro hall
    rw [List.all_eq_true.mpr hall] at ht
    cases ht
  push_neg at this
  obtain ⟨x, hx, hxne⟩ := this
  obtain ⟨i, hi, rfl⟩ := List.mem_iff_getElem.mp hx
  refine ⟨i, by omega, ?_⟩
  rw [List.getD_eq_getElem?_getD, List.getElem?_eq_getElem hi]
  simpa using hxne

theorem blocked_state_move_false (b : Board) (d p1 : Pos) (s : List Nat)
    (hlen : s.length = b.width) (hbs : blocked_state b d s = true) (hne : p1.col ≠ d.col) :
    blocked_state b p1 s = false := by
  unfold blocked_state at hbs ⊢
  rcases Bool.and_eq_true _ _ |>.mp hbs with ⟨ht, ha⟩
  rw [Bool.not_eq_true'] at ht ha
  obtain ⟨i, hi, hlive⟩ := live_col_of_nonterminal b s hlen (by simpa using ht)
  have hlive' : (s.getD i 99 == 99) = false := by simpa using hlive
  have hskip : col_skip b d s i = true := by
    by_contra hns
    have hns' : col_skip b d s i = false := by simpa using hns
    have : any_move_b b d s = true := by
      unfold any_move_b
      rw [List.any_eq_true]
      exact ⟨i, List.mem_range.mpr hi, by unfold col_move; rw [hlive', hns']; rfl⟩
    rw [this] at ha; cases ha
  have hdest : dest_pos s i = d := by
    unfold col_skip at hskip
    rcases Bool.and_eq_true _ _ |>.mp hskip with ⟨h1, _⟩
    exact of_decide_eq_true h1
  have hmove : any_move_b b p1 s = true := by
    unfold any_move_b
    rw [List.any_eq_true]
    refine ⟨i, List.mem_range.mpr hi, ?_⟩
    have hdp : dest_pos s i ≠ p1 := by
      rw [hdest]
      intro hdp
      exact hne (by rw [hdp])
    have hsk : col_skip b p1 s i = false := by
      unfold col_skip
      simp [hdp]
    unfold col_move
    rw [hlive', hsk]
    rfl
  simp [hmove]

theorem rank_prey_le_two (b : Board) (d : Pos) (s : List Nat) : rank b false d s ≤ 2 := by
  unfold rank
  simp only [Bool.false_eq_true, if_false]
  split <;> omega

theorem meas_pred_plain (b : Board) (d p1 : Pos) (s : List Nat)
    (hlen : s.length = b.width) (hne : p1.col ≠ d.col) :
    gmeasure b false p1 s < gmeasure b true d s := by
  unfold gmeasure
  cases hbs : blocked_state b d s with
  | false =>
    have e1 : rank b true d s = 3 := by simp [rank, hbs]
    have e2 := rank_prey_le_two b p1 s
    omega
  | true =>
    have h2 := blocked_state_move_false b d p1 s hlen hbs hne
    have e1 : rank b true d s = 1 := by simp [rank, hbs]
    have e2 : rank b false p1 s = 0 := by simp [rank, h2]
    omega

/-- Every recursive call strictly decreases the measure and preserves the
state invariant. -/
theorem edge_measure (b : Board) (safe : List Nat)
    {t s : Bool × Pos × List Nat} (hinv : inv_sheep b s.2.2) (he : CallEdge b safe t s) :
    inv_sheep b t.2.2 ∧ gmeasure b t.1 t.2.1 t.2.2 < gmeasure b s.1 s.2.1 s.2.2 := by
  obtain ⟨hlen, hentries⟩ := hinv
  cases he with
  | prey_branch dragon sheep c hc ht hr hskip hesc =>
    have hrh : sheep.getD c 99 < b.height := (hentries c hc).resolve_left hr
    push_neg at hesc
    constructor
    · exact inv_sheep_set b sheep c _ ⟨hlen, hentries⟩ (Or.inr (by omega))
    · exact meas_prey_branch b dragon sheep c hlen hc hrh hr
  | prey_double dragon sheep ht ha =>
    refine ⟨⟨hlen, hentries⟩, ?_⟩
    apply meas_prey_double
    unfold blocked_state
    rw [ht, ha]
    rfl
  | pred_capture dragon sheep p1 hmem hb hs =>
    obtain ⟨hrow, hcol, hcne⟩ := mem_dragon_move_list hmem
    by_cases h99 : p1.row = 99
    · have : sheep.set p1.col 99 = sheep := by
        conv_lhs => rw [show (99 : Nat) = sheep.getD p1.col 99 by rw [hs, h99]]
        exact set_getD_self sheep p1.col 99
      rw [this]
      exact ⟨⟨hlen, hentries⟩, meas_pred_plain b dragon p1 sheep hlen hcne⟩
    · constructor
      · exact inv_sheep_set b sheep p1.col 99 ⟨hlen, hentries⟩ (Or.inl rfl)
      · exact meas_pred_capture b dragon p1 sheep hlen hcol hrow hs h99
  | pred_plain dragon sheep p1 hmem hnc =>
    obtain ⟨hrow, hcol, hcne⟩ := mem_dragon_move_list hmem
    exact ⟨⟨hlen, hentries⟩, meas_pred_plain b dragon p1 sheep hlen hcne⟩

/-! ## State restoration: the in-place mutations are always undone -/

/-- Two games agreeing on everything but the dragon position. -/
def same_core (g1 g2 : Game) : Prop :=
  g1.board = g2.board ∧ g1.sheep = g2.sheep ∧ g1.safe = g2.safe

theorem game_ext (g1 g2 : Game) (h1 : g1.board = g2.board) (h2 : g1.dragon = g2.dragon)
    (h3 : g1.sheep = g2.sheep) (h4 : g1.safe = g2.safe) : g1 = g2 := by
  cases g1; cases g2; simp_all

theorem sheep_step_state (recurse : Game → Cache → Nat × Game × Cache)
    (hrec : ∀ g1 ch, (recurse g1 ch).2.1 = g1)
    (acc : Nat × Bool × Game × Cache) (c : Nat) :
    (Game.sheep_step recurse acc c).2.2.1 = acc.2.2.1 := by
  unfold Game.sheep_step
  dsimp only
  split
  · rfl
  · split
    · rfl
    · split
      · rfl
      · rename_i hr _ _
        simp only [hrec]
        rw [List.set_set, set_getD_self]

theorem dragon_step_core (recurse : Game → Cache → Nat × Game × Cache)
    (hrec : ∀ g1 ch, (recurse g1 ch).2.1 = g1)
    (acc : Nat × Game × Cache) (p1 : Pos) :
    same_core (Game.dragon_step recurse acc p1).2.1 acc.2.1 := by
  unfold Game.dragon_step
  dsimp only
  split
  · rename_i hcond
    refine ⟨?_, ?_, ?_⟩ <;> simp only [hrec]
    rw [List.set_set]
    have := of_decide_eq_true hcond.2
    simp only [Game.has_sheep_at] at this
    conv_lhs => rw [show p1.row = acc.2.1.sheep.getD p1.col 99 from (of_decide_eq_true hcond.2).symm]
    exact set_getD_self _ _ _
  · exact ⟨by simp [hrec], by simp [hrec], by simp [hrec]⟩

theorem foldl_state_const {α : Type} (step : Nat × Bool × Game × Cache → α → Nat × Bool × Game × Cache)
    (hstep : ∀ acc x, (step acc x).2.2.1 = acc.2.2.1) (l : List α)
    (acc : Nat × Bool × Game × Cache) :
    (l.foldl step acc).2.2.1 = acc.2.2.1 := by
  induction l generalizing acc with
  | nil => rfl
  | cons x t ih => rw [List.foldl_cons, ih, hstep]

theorem foldl_core_const {α : Type} (step : Nat × Game × Cache → α → Nat × Game × Cache)
    (hstep : ∀ acc x, same_core (step acc x).2.1 acc.2.1) (l : List α)
    (acc : Nat × Game × Cache) :
    same_core (l.foldl step acc).2.1 acc.2.1 := by
  induction l generalizing acc with
  | nil => exact ⟨rfl, rfl, rfl⟩
  | cons x t ih =>
    rw [List.foldl_cons]
    obtain ⟨a1, a2, a3⟩ := ih (step acc x)
    obtain ⟨b1, b2, b3⟩ := hstep acc x
    exact ⟨a1.trans b1, a2.trans b2, a3.trans b3⟩

/-- After any call the game record — dragon position and sheep vector
included — is exactly what it was at entry; only the memo table changes. -/
theorem moves_state_id : ∀ (n : Nat) (ph : Bool) (g : Game) (seen : Cache),
    (Game.moves n ph g seen).2.1 = g := by
  intro n
  induction n with
  | zero => intro ph g seen; rfl
  | succ n ih =>
    intro ph g seen
    cases ph
    · show (Game.moves (n + 1) false g seen).2.1 = g
      rw [Game.moves]
      cases hl : cache_lookup seen (g.cache_key false) with
      | some v => simp [hl]
      | none =>
        simp only [hl]
        split
        · rfl
        · simp only
          have hfold := foldl_state_const
            (Game.sheep_step fun g1 ch => Game.moves n true g1 ch)
            (fun acc c => sheep_step_state _ (fun g1 ch => ih true g1 ch) acc c)
            (List.range g.board.width) (0, false, g, seen)
          split
          · simpa using hfold
          · simpa [ih true] using hfold
    · show (Game.moves (n + 1) true g seen).2.1 = g
      rw [Game.moves]
      cases hl : cache_lookup seen (g.cache_key true) with
      | some v => simp [hl]
      | none =>
        simp only [hl]
        have hfold := foldl_core_const
          (Game.dragon_step fun g1 ch => Game.moves n false g1 ch)
          (fun acc p1 => dragon_step_core _ (fun g1 ch => ih false g1 ch) acc p1)
          (g.board.dragon_move_list g.dragon) (0, g, seen)
        obtain ⟨h1, h2, h3⟩ := hfold
        exact game_ext _ _ h1 rfl h2 h3

/-! ## Characterizing the cache-free recursion -/

theorem plain_sheep_step_eq (b : Board) (safe : List Nat) (d : Pos) (s : List Nat)
    (F : List Nat → Nat) (acc : Nat × Bool) (c : Nat) :
    plain_sheep_step b safe d s F acc c =
      (acc.1 + sheep_contrib b safe d s F c, acc.2 || col_move b d s c) := by
  unfold plain_sheep_step sheep_contrib col_move col_skip dest_pos
  set r := s.getD c 99 with hrdef
  by_cases h1 : r = 99
  · rw [if_pos h1, if_pos h1]
    have h1b : (r == 99) = true := by simpa using h1
    rw [h1b]
    simp only [Bool.not_true, Bool.false_and, Bool.or_false, Nat.add_zero]
  · rw [if_neg h1, if_neg h1]
    have h1b : (r == 99) = false := by simpa using h1
    rw [h1b]
    simp only [Bool.not_false, Bool.true_and]
    by_cases h2 : (⟨r + 1, c⟩ : Pos) = d ∧ b.is_blocked ⟨r + 1, c⟩ = false
    · rw [if_pos h2, if_pos h2]
      have hskb : (decide ((⟨r + 1, c⟩ : Pos) = d) && !b.is_blocked ⟨r + 1, c⟩) = true := by
        rw [decide_eq_true h2.1, h2.2]
        rfl
      rw [hskb]
      simp only [Bool.not_true, Bool.or_false, Nat.add_zero]
    · rw [if_neg h2, if_neg h2]
      have hskb : (decide ((⟨r + 1, c⟩ : Pos) = d) && !b.is_blocked ⟨r + 1, c⟩) = false := by
        by_cases hd : (⟨r + 1, c⟩ : Pos) = d
        · have hb : b.is_blocked ⟨r + 1, c⟩ = true := by
            cases hb2 : b.is_blocked ⟨r + 1, c⟩
            · exact absurd ⟨hd, hb2⟩ h2
            · rfl
          rw [hb]
          simp
        · rw [decide_eq_false hd]
          rfl
      rw [hskb]
      simp only [Bool.not_false, Bool.or_true]
      by_cases h3 : r + 1 = b.height ∨ is_safe_v safe ⟨r + 1, c⟩ = true
      · rw [if_pos h3, if_pos h3, Nat.add_zero]
      · rw [if_neg h3, if_neg h3]

theorem plain_dragon_step_eq (b : Board) (s : List Nat) (F : Pos → List Nat → Nat)
    (count : Nat) (p1 : Pos) :
    plain_dragon_step b s F count p1 = count + dragon_contrib b s F p1 := by
  unfold plain_dragon_step dragon_contrib
  split <;> rfl

theorem plain_moves_prey_unfold (b : Board) (safe : List Nat) (n : Nat) (d : Pos)
    (s : List Nat) :
    plain_moves b safe (n + 1) false d s =
      if terminal_b s then 1
      else
        let total :=
          ((List.range b.width).map (sheep_contrib b safe d s
            (plain_moves b safe n true d))).sum
        if any_move_b b d s then total else total + plain_moves b safe n true d s := by
  rw [plain_moves]
  have hf := foldl_add_or_eq
    (plain_sheep_step b safe d s fun s1 => plain_moves b safe n true d s1)
    (sheep_contrib b safe d s (plain_moves b safe n true d)) (col_move b d s)
    (fun acc c => plain_sheep_step_eq b safe d s _ acc c) (List.range b.width) 0 false
  unfold terminal_b any_move_b
  split
  · rfl
  · rw [hf]
    simp only [Nat.zero_add, Bool.false_or]

theorem plain_moves_pred_unfold (b : Board) (safe : List Nat) (n : Nat) (d : Pos)
    (s : List Nat) :
    plain_moves b safe (n + 1) true d s =
      ((b.dragon_move_list d).map (dragon_contrib b s
        fun p1 s1 => plain_moves b safe n false p1 s1)).sum := by
  rw [plain_moves]
  have hf := @List.foldl_ext Nat Pos
    (plain_dragon_step b s fun p1 s1 => plain_moves b safe n false p1 s1)
    (fun count p1 => count +
      dragon_contrib b s (fun p1 s1 => plain_moves b safe n false p1 s1) p1) 0
    (b.dragon_move_list d)
    (fun a p1 _ => plain_dragon_step_eq b s _ a p1)
  rw [hf, foldl_add_eq_sum, Nat.zero_add]

/-- Above the measure, the cache-free count no longer depends on the fuel. -/
theorem plain_stable (b : Board) (safe : List Nat) :
    ∀ (n : Nat) (ph : Bool) (d : Pos) (s : List Nat) (m : Nat), inv_sheep b s →
      gmeasure b ph d s < n → gmeasure b ph d s < m →
      plain_moves b safe n ph d s = plain_moves b safe m ph d s := by
  intro n
  induction n using Nat.strong_induction_on with
  | _ n IH =>
    intro ph d s m hinv hn hm
    obtain ⟨n', rfl⟩ : ∃ n', n = n' + 1 := ⟨n - 1, by omega⟩
    obtain ⟨m', rfl⟩ : ∃ m', m = m' + 1 := ⟨m - 1, by omega⟩
    cases ph
    · rw [plain_moves_prey_unfold, plain_moves_prey_unfold]
      by_cases hterm : terminal_b s = true
      · rw [hterm]; rfl
      · have hterm' : terminal_b s = false := by simpa using hterm
        rw [hterm']
        have hsum : ((List.range b.width).map (sheep_contrib b safe d s
              (plain_moves b safe n' true d))).sum =
            ((List.range b.width).map (sheep_contrib b safe d s
              (plain_moves b safe m' true d))).sum := by
          refine congrArg List.sum (List.map_congr_left ?_)
          intro c hc
          have hcw : c < b.width := List.mem_range.mp hc
          unfold sheep_contrib
          dsimp only
          split
          · rfl
          · split
            · rfl
            · split
              · rfl
              · rename_i hr hskip hesc
                have hedge : CallEdge b safe (true, d, s.set c (s.getD c 99 + 1)) (false, d, s) :=
                  CallEdge.prey_branch d s c hcw hterm' hr hskip hesc
                obtain ⟨hinv', hlt⟩ := edge_measure b safe hinv hedge
                dsimp only at hlt
                exact IH n' (by omega) true d (s.set c (s.getD c 99 + 1)) m' hinv'
                  (by omega) (by omega)
        rw [hsum]
        by_cases hany : any_move_b b d s = true
        · rw [hany]; rfl
        · have hany' : any_move_b b d s = false := by simpa using hany
          rw [hany']
          simp only [if_false, Bool.false_eq_true]
          have hedge : CallEdge b safe (true, d, s) (false, d, s) :=
            CallEdge.prey_double d s hterm' hany'
          obtain ⟨hinv', hlt⟩ := edge_measure b safe hinv hedge
          dsimp only at hlt
          rw [IH n' (by omega) true d s m' hinv' (by omega) (by omega)]
    · rw [plain_moves_pred_unfold, plain_moves_pred_unfold]
      refine congrArg List.sum (List.map_congr_left ?_)
      intro p1 hp1
      unfold dragon_contrib
      split
      · rename_i hcap
        have hedge : CallEdge b safe (false, p1, s.set p1.col 99) (true, d, s) :=
          CallEdge.pred_capture d s p1 hp1 hcap.1 hcap.2
        obtain ⟨hinv', hlt⟩ := edge_measure b safe hinv hedge
        dsimp only at hlt
        exact IH n' (by omega) false p1 (s.set p1.col 99) m' hinv' (by omega) (by omega)
      · rename_i hcap
        have hedge : CallEdge b safe (false, p1, s) (true, d, s) :=
          CallEdge.pred_plain d s p1 hp1 hcap
        obtain ⟨hinv', hlt⟩ := edge_measure b safe hinv hedge
        dsimp only at hlt
        exact IH n' (by omega) false p1 s m' hinv' (by omega) (by omega)

/-- Above the measure, the cache-free count equals `tvalue`. -/
theorem plain_eq_tvalue (b : Board) (safe : List Nat) (n : Nat) (ph : Bool) (d : Pos)
    (s : List Nat) (hinv : inv_sheep b s) (hn : gmeasure b ph d s < n) :
    plain_moves b safe n ph d s = tvalue b safe ph d s :=
  plain_stable b safe n ph d s (gmeasure b ph d s + 1) hinv hn (by omega)

/-- Unfolding `tvalue` at a dragon turn: one capture-or-not child per knight
move. -/
theorem tvalue_pred_unfold (b : Board) (safe : List Nat) (d : Pos) (s : List Nat)
    (hinv : inv_sheep b s) :
    tvalue b safe true d s =
      ((b.dragon_move_list d).map fun p1 =>
        if b.is_blocked p1 = false ∧ s.getD p1.col 99 = p1.row then
          tvalue b safe false p1 (s.set p1.col 99)
        else tvalue b safe false p1 s).sum := by
  rw [show tvalue b safe true d s =
    plain_moves b safe (gmeasure b true d s + 1) true d s from rfl]
  rw [plain_moves_pred_unfold]
  refine congrArg List.sum (List.map_congr_left ?_)
  intro p1 hp1
  unfold dragon_contrib
  split
  · rename_i hcap
    have hedge : CallEdge b safe (false, p1, s.set p1.col 99) (true, d, s) :=
      CallEdge.pred_capture d s p1 hp1 hcap.1 hcap.2
    obtain ⟨hinv', hlt⟩ := edge_measure b safe hinv hedge
    dsimp only at hlt hinv'
    exact plain_eq_tvalue b safe _ false p1 (s.set p1.col 99) hinv' hlt
  · rename_i hcap
    have hedge : CallEdge b safe (false, p1, s) (true, d, s) :=
      CallEdge.pred_plain d s p1 hp1 hcap
    obtain ⟨hinv', hlt⟩ := edge_measure b safe hinv hedge
    dsimp only at hlt hinv'
    exact plain_eq_tvalue b safe _ false p1 s hinv' hlt

/-- Unfolding `tvalue` at a sheep turn. -/
theorem tvalue_prey_unfold (b : Board) (safe : List Nat) (d : Pos) (s : List Nat)
    (hinv : inv_sheep b s) :
    tvalue b safe false d s =
      if terminal_b s then 1
      else
        let total := ((List.range b.width).map
          (sheep_contrib b safe d s fun s1 => tvalue b safe true d s1)).sum
        if any_move_b b d s then total else total + tvalue b safe true d s := by
  rw [show tvalue b safe false d s =
    plain_moves b safe (gmeasure b false d s + 1) false d s from rfl]
  rw [plain_moves_prey_unfold]
  by_cases hterm : terminal_b s = true
  · rw [hterm]
    rfl
  · have hterm' : terminal_b s = false := by simpa using hterm
    rw [hterm']
    simp only [Bool.false_eq_true, if_false]
    have hsum : ((List.range b.width).map (sheep_contrib b safe d s
          (plain_moves b safe (gmeasure b false d s) true d))).sum =
        ((List.range b.width).map
          (sheep_contrib b safe d s fun s1 => tvalue b safe true d s1)).sum := by
      refine congrArg List.sum (List.map_congr_left ?_)
      intro c hc
      have hcw : c < b.width := List.mem_range.mp hc
      unfold sheep_contrib
      dsimp only
      split
      · rfl
      · split
        · rfl
        · split
          · rfl
          · rename_i hr hskip hesc
            have hedge : CallEdge b safe (true, d, s.set c (s.getD c 99 + 1)) (false, d, s) :=
              CallEdge.prey_branch d s c hcw hterm' hr hskip hesc
            obtain ⟨hinv', hlt⟩ := edge_measure b safe hinv hedge
            dsimp only at hlt hinv'
            exact plain_eq_tvalue b safe _ true d (s.set c (s.getD c 99 + 1)) hinv' hlt
    rw [hsum]
    by_cases hany : any_move_b b d s = true
    · rw [hany]
      simp
    · have hany' : any_move_b b d s = false := by simpa using hany
      rw [hany']
      simp only [Bool.false_eq_true, if_false]
      have hedge : CallEdge b safe (true, d, s) (false, d, s) :=
        CallEdge.prey_double d s hterm' hany'
      obtain ⟨hinv', hlt⟩ := edge_measure b safe hinv hedge
      dsimp only at hlt hinv'
      rw [plain_eq_tvalue b safe _ true d s hinv' hlt]

/-! ## Cache correctness -/

theorem cache_good_nil (b : Board) (safe : List Nat) : cache_good b safe [] := by
  intro k v h
  simp [cache_lookup] at h

theorem cache_lookup_insert (seen : Cache) (k k' : CacheKey) (v : Nat) :
    cache_lookup (cache_insert seen k v) k' =
      if k' = k then some v else cache_lookup seen k' := by
  unfold cache_insert cache_lookup
  rw [List.find?_cons]
  by_cases h : k = k'
  · subst h
    rw [if_pos rfl]
    simp
  · rw [if_neg (fun he => h he.symm)]
    have : (decide ((k, v).1 = k')) = false := by simpa using h
    rw [this]

theorem cache_good_insert (b : Board) (safe : List Nat) (seen : Cache) (k : CacheKey)
    (v : Nat) (hg : cache_good b safe seen) (hinvk : inv_sheep b k.2.2)
    (hv : v = tvalue b safe k.1 k.2.1 k.2.2) :
    cache_good b safe (cache_insert seen k v) := by
  intro k' v' h
  rw [cache_lookup_insert] at h
  split at h
  · rename_i he
    cases h
    subst he
    exact ⟨hinvk, hv⟩
  · exact hg k' v' h

/-! ## Per-column classification -/

theorem col_move_dead (b : Board) (d : Pos) (s : List Nat) (c : Nat)
    (h1 : s.getD c 99 = 99) : col_move b d s c = false := by
  unfold col_move
  have : (s.getD c 99 == 99) = true := by simpa using h1
  rw [this]
  rfl

theorem col_move_skip (b : Board) (d : Pos) (s : List Nat) (c : Nat)
    (h2 : (⟨s.getD c 99 + 1, c⟩ : Pos) = d ∧ b.is_blocked ⟨s.getD c 99 + 1, c⟩ = false) :
    col_move b d s c = false := by
  unfold col_move col_skip dest_pos
  rw [decide_eq_true h2.1, h2.2]
  simp

theorem col_move_live (b : Board) (d : Pos) (s : List Nat) (c : Nat)
    (h1 : ¬ s.getD c 99 = 99)
    (h2 : ¬((⟨s.getD c 99 + 1, c⟩ : Pos) = d ∧ b.is_blocked ⟨s.getD c 99 + 1, c⟩ = false)) :
    col_move b d s c = true := by
  unfold col_move col_skip dest_pos
  have h1b : (s.getD c 99 == 99) = false := by simpa using h1
  have hskb : (decide ((⟨s.getD c 99 + 1, c⟩ : Pos) = d) &&
      !b.is_blocked ⟨s.getD c 99 + 1, c⟩) = false := by
    by_cases hd : (⟨s.getD c 99 + 1, c⟩ : Pos) = d
    · have hb : b.is_blocked ⟨s.getD c 99 + 1, c⟩ = true := by
        cases hb2 : b.is_blocked ⟨s.getD c 99 + 1, c⟩
        · exact absurd ⟨hd, hb2⟩ h2
        · rfl
      rw [hb]
      simp
    · rw [decide_eq_false hd]
      rfl
  rw [h1b, hskb]
  rfl

theorem sheep_contrib_dead (b : Board) (safe : List Nat) (d : Pos) (s : List Nat)
    (F : List Nat → Nat) (c : Nat) (h1 : s.getD c 99 = 99) :
    sheep_contrib b safe d s F c = 0 := by
  unfold sheep_contrib
  rw [if_pos h1]

theorem sheep_contrib_skip (b : Board) (safe : List Nat) (d : Pos) (s : List Nat)
    (F : List Nat → Nat) (c : Nat) (h1 : ¬ s.getD c 99 = 99)
    (h2 : (⟨s.getD c 99 + 1, c⟩ : Pos) = d ∧ b.is_blocked ⟨s.getD c 99 + 1, c⟩ = false) :
    sheep_contrib b safe d s F c = 0 := by
  unfold sheep_contrib
  rw [if_neg h1, if_pos h2]

theorem sheep_contrib_escape (b : Board) (safe : List Nat) (d : Pos) (s : List Nat)
    (F : List Nat → Nat) (c : Nat) (h1 : ¬ s.getD c 99 = 99)
    (h2 : ¬((⟨s.getD c 99 + 1, c⟩ : Pos) = d ∧ b.is_blocked ⟨s.getD c 99 + 1, c⟩ = false))
    (h3 : s.getD c 99 + 1 = b.height ∨ is_safe_v safe ⟨s.getD c 99 + 1, c⟩ = true) :
    sheep_contrib b safe d s F c = 0 := by
  unfold sheep_contrib
  rw [if_neg h1, if_neg h2, if_pos h3]

theorem sheep_contrib_branch (b : Board) (safe : List Nat) (d : Pos) (s : List Nat)
    (F : List Nat → Nat) (c : Nat) (h1 : ¬ s.getD c 99 = 99)
    (h2 : ¬((⟨s.getD c 99 + 1, c⟩ : Pos) = d ∧ b.is_blocked ⟨s.getD c 99 + 1, c⟩ = false))
    (h3 : ¬(s.getD c 99 + 1 = b.height ∨ is_safe_v safe ⟨s.getD c 99 + 1, c⟩ = true)) :
    sheep_contrib b safe d s F c = F (s.set c (s.getD c 99 + 1)) := by
  unfold sheep_contrib
  rw [if_neg h1, if_neg h2, if_neg h3]

/-- The memoized recursion returns the cache-free count of its state and
leaves the memo table correct, for any correct incoming table and any fuel
above the measure. -/
theorem moves_correct : ∀ (n : Nat) (ph : Bool) (g : Game) (seen : Cache),
    inv_sheep g.board g.sheep → gmeasure g.board ph g.dragon g.sheep < n →
    cache_good g.board g.safe seen →
    (Game.moves n ph g seen).1 = tvalue g.board g.safe ph g.dragon g.sheep ∧
    cache_good g.board g.safe (Game.moves n ph g seen).2.2 := by
  intro n
  induction n using Nat.strong_induction_on with
  | _ n IH =>
    intro ph g seen hinv hn hgood
    obtain ⟨n', rfl⟩ : ∃ n', n = n' + 1 := ⟨n - 1, by omega⟩
    cases ph with
    | false =>
      rw [Game.moves]
      cases hl : cache_lookup seen (g.cache_key false) with
      | some v =>
        simp only [hl]
        exact ⟨(hgood (g.cache_key false) v hl).2, hgood⟩
      | none =>
        simp only [hl]
        by_cases hterm : g.sheep.all (· == 99)
        · rw [if_pos hterm]
          refine ⟨?_, hgood⟩
          rw [tvalue_prey_unfold g.board g.safe g.dragon g.sheep hinv,
            show terminal_b g.sheep = true from hterm]
          rfl
        · rw [if_neg hterm]
          have hterm' : terminal_b g.sheep = false := by
            unfold terminal_b
            simpa using hterm
          have hfold : ∀ (l : List Nat), (∀ c ∈ l, c < g.board.width) →
              ∀ (cnt : Nat) (fl : Bool) (ch : Cache), cache_good g.board g.safe ch →
              ∃ ch1, (l.foldl (Game.sheep_step fun g1 ch2 => Game.moves n' true g1 ch2)
                  (cnt, fl, g, ch)) =
                (cnt + (l.map (sheep_contrib g.board g.safe g.dragon g.sheep
                  fun s1 => tvalue g.board g.safe true g.dragon s1)).sum,
                 fl || l.any (col_move g.board g.dragon g.sheep), g, ch1) ∧
                cache_good g.board g.safe ch1 := by
            intro l
            induction l with
            | nil =>
              intro _ cnt fl ch hch
              exact ⟨ch, by simp, hch⟩
            | cons c t iht =>
              intro hmem cnt fl ch hch
              have hcw : c < g.board.width := hmem c (List.mem_cons_self c t)
              have hmem' : ∀ c' ∈ t, c' < g.board.width :=
                fun c' hc' => hmem c' (List.mem_cons_of_mem c hc')
              rw [List.foldl_cons]
              by_cases h1 : g.sheep.getD c 99 = 99
              · have hstep : Game.sheep_step (fun g1 ch2 => Game.moves n' true g1 ch2)
                    (cnt, fl, g, ch) c = (cnt, fl, g, ch) := by
                  unfold Game.sheep_step
                  dsimp only
                  rw [if_pos h1]
                rw [hstep]
                obtain ⟨ch1, hres, hch1⟩ := iht hmem' cnt fl ch hch
                refine ⟨ch1, ?_, hch1⟩
                rw [hres, List.map_cons, List.sum_cons, List.any_cons,
                  sheep_contrib_dead _ _ _ _ _ _ h1, col_move_dead _ _ _ _ h1]
                simp
              · by_cases h2 : (⟨g.sheep.getD c 99 + 1, c⟩ : Pos) = g.dragon ∧
                    g.board.is_blocked ⟨g.sheep.getD c 99 + 1, c⟩ = false
                · have hstep : Game.sheep_step (fun g1 ch2 => Game.moves n' true g1 ch2)
                      (cnt, fl, g, ch) c = (cnt, fl, g, ch) := by
                    unfold Game.sheep_step
                    dsimp only
                    rw [if_neg h1, if_pos h2]
                  rw [hstep]
                  obtain ⟨ch1, hres, hch1⟩ := iht hmem' cnt fl ch hch
                  refine ⟨ch1, ?_, hch1⟩
                  rw [hres, List.map_cons, List.sum_cons, List.any_cons,
                    sheep_contrib_skip _ _ _ _ _ _ h1 h2, col_move_skip _ _ _ _ h2]
                  simp
                · by_cases h3 : g.sheep.getD c 99 + 1 = g.board.height ∨
                      g.is_safe ⟨g.sheep.getD c 99 + 1, c⟩ = true
                  · have hstep : Game.sheep_step (fun g1 ch2 => Game.moves n' true g1 ch2)
                        (cnt, fl, g, ch) c = (cnt, true, g, ch) := by
                      unfold Game.sheep_step
                      dsimp only
                      rw [if_neg h1, if_neg h2, if_pos h3]
                    rw [hstep]
                    obtain ⟨ch1, hres, hch1⟩ := iht hmem' cnt true ch hch
                    refine ⟨ch1, ?_, hch1⟩
                    rw [hres, List.map_cons, List.sum_cons, List.any_cons,
                      sheep_contrib_escape _ _ _ _ _ _ h1 h2 h3, col_move_live _ _ _ _ h1 h2]
                    simp
                  · have hedge : CallEdge g.board g.safe
                        (true, g.dragon, g.sheep.set c (g.sheep.getD c 99 + 1))
                        (false, g.dragon, g.sheep) :=
                      CallEdge.prey_branch g.dragon g.sheep c hcw hterm' h1 h2 h3
                    obtain ⟨hinv', hlt⟩ := edge_measure _ _ hinv hedge
                    dsimp only at hlt hinv'
                    have hrec := IH n' (by omega) true
                      { g with sheep := g.sheep.set c (g.sheep.getD c 99 + 1) } ch hinv'
                      (by dsimp only; omega) hch
                    dsimp only at hrec
                    have hstate := moves_state_id n' true
                      { g with sheep := g.sheep.set c (g.sheep.getD c 99 + 1) } ch
                    have hstep : Game.sheep_step (fun g1 ch2 => Game.moves n' true g1 ch2)
                        (cnt, fl, g, ch) c =
                        (cnt + (Game.moves n' true
                           { g with sheep := g.sheep.set c (g.sheep.getD c 99 + 1) } ch).1,
                         true, g,
                         (Game.moves n' true
                           { g with sheep := g.sheep.set c (g.sheep.getD c 99 + 1) } ch).2.2) := by
                      unfold Game.sheep_step
                      dsimp only
                      rw [if_neg h1, if_neg h2, if_neg h3, hstate]
                      dsimp only
                      rw [List.set_set, set_getD_self]
                    rw [hstep]
                    obtain ⟨ch1, hres, hch1⟩ := iht hmem'
                      (cnt + (Game.moves n' true
                        { g with sheep := g.sheep.set c (g.sheep.getD c 99 + 1) } ch).1)
                      true (Game.moves n' true
                        { g with sheep := g.sheep.set c (g.sheep.getD c 99 + 1) } ch).2.2 hrec.2
                    refine ⟨ch1, ?_, hch1⟩
                    rw [hres, hrec.1, List.map_cons, List.sum_cons, List.any_cons,
                      sheep_contrib_branch _ _ _ _ _ _ h1 h2 h3, col_move_live _ _ _ _ h1 h2]
                    simp [Nat.add_assoc]
          obtain ⟨ch1, hres, hch1⟩ := hfold (List.range g.board.width)
            (fun c hc => List.mem_range.mp hc) 0 false seen hgood
          have hany_eq : (List.range g.board.width).any (col_move g.board g.dragon g.sheep) =
              any_move_b g.board g.dragon g.sheep := rfl
          rw [hany_eq] at hres
          simp only [hres]
          try dsimp only
          simp only [Nat.zero_add, Bool.false_or]
          by_cases hany : any_move_b g.board g.dragon g.sheep = true
          · have htv : tvalue g.board g.safe false g.dragon g.sheep =
                ((List.range g.board.width).map (sheep_contrib g.board g.safe g.dragon g.sheep
                  fun s1 => tvalue g.board g.safe true g.dragon s1)).sum := by
              rw [tvalue_prey_unfold _ _ _ _ hinv,
                show terminal_b g.sheep = false from hterm']
              try dsimp only
              rw [hany]
              simp
            rw [hany]
            try dsimp only
            refine ⟨htv.symm, ?_⟩
            exact cache_good_insert _ _ _ _ _ hch1 hinv htv.symm
          · have hany' : any_move_b g.board g.dragon g.sheep = false := by simpa using hany
            have hedge : CallEdge g.board g.safe (true, g.dragon, g.sheep)
                (false, g.dragon, g.sheep) :=
              CallEdge.prey_double g.dragon g.sheep hterm' hany'
            obtain ⟨hinv', hlt⟩ := edge_measure _ _ hinv hedge
            dsimp only at hlt hinv'
            have hrec := IH n' (by omega) true g ch1 hinv' (by omega) hch1
            have htv : tvalue g.board g.safe false g.dragon g.sheep =
                ((List.range g.board.width).map (sheep_contrib g.board g.safe g.dragon g.sheep
                  fun s1 => tvalue g.board g.safe true g.dragon s1)).sum +
                tvalue g.board g.safe true g.dragon g.sheep := by
              rw [tvalue_prey_unfold _ _ _ _ hinv,
                show terminal_b g.sheep = false from hterm']
              try dsimp only
              rw [hany']
              simp
            rw [hany']
            simp only [Bool.false_eq_true, if_false]
            try dsimp only
            rw [hrec.1]
            refine ⟨htv.symm, ?_⟩
            exact cache_good_insert _ _ _ _ _ hrec.2 hinv htv.symm
    | true =>
      rw [Game.moves]
      cases hl : cache_lookup seen (g.cache_key true) with
      | some v =>
        simp only [hl]
        exact ⟨(hgood (g.cache_key true) v hl).2, hgood⟩
      | none =>
        simp only [hl]
        have hfold : ∀ (l : List Pos), (∀ p ∈ l, p ∈ g.board.dragon_move_list g.dragon) →
            ∀ (cnt : Nat) (dc : Pos) (ch : Cache), cache_good g.board g.safe ch →
            ∃ dd ch1, (l.foldl (Game.dragon_step fun g1 ch2 => Game.moves n' false g1 ch2)
                (cnt, { g with dragon := dc }, ch)) =
              (cnt + (l.map fun p1 =>
                  if g.board.is_blocked p1 = false ∧ g.sheep.getD p1.col 99 = p1.row then
                    tvalue g.board g.safe false p1 (g.sheep.set p1.col 99)
                  else tvalue g.board g.safe false p1 g.sheep).sum,
               { g with dragon := dd }, ch1) ∧ cache_good g.board g.safe ch1 := by
          intro l
          induction l with
          | nil =>
            intro _ cnt dc ch hch
            exact ⟨dc, ch, by simp, hch⟩
          | cons p1 t iht =>
            intro hmem cnt dc ch hch
            have hp1 : p1 ∈ g.board.dragon_move_list g.dragon := hmem p1 (List.mem_cons_self p1 t)
            have hmem' : ∀ p ∈ t, p ∈ g.board.dragon_move_list g.dragon :=
              fun p hp => hmem p (List.mem_cons_of_mem p1 hp)
            rw [List.foldl_cons]
            by_cases hcap : g.board.is_blocked p1 = false ∧ g.sheep.getD p1.col 99 = p1.row
            · have hedge : CallEdge g.board g.safe (false, p1, g.sheep.set p1.col 99)
                  (true, g.dragon, g.sheep) :=
                CallEdge.pred_capture g.dragon g.sheep p1 hp1 hcap.1 hcap.2
              obtain ⟨hinv', hlt⟩ := edge_measure _ _ hinv hedge
              dsimp only at hlt hinv'
              have hrec := IH n' (by omega) false
                { g with dragon := p1, sheep := g.sheep.set p1.col 99 } ch hinv'
                (by dsimp only; omega) hch
              dsimp only at hrec
              have hstate := moves_state_id n' false
                { g with dragon := p1, sheep := g.sheep.set p1.col 99 } ch
              have hstep : Game.dragon_step (fun g1 ch2 => Game.moves n' false g1 ch2)
                  (cnt, { g with dragon := dc }, ch) p1 =
                  (cnt + (Game.moves n' false
                     { g with dragon := p1, sheep := g.sheep.set p1.col 99 } ch).1,
                   { g with dragon := p1 },
                   (Game.moves n' false
                     { g with dragon := p1, sheep := g.sheep.set p1.col 99 } ch).2.2) := by
                unfold Game.dragon_step
                dsimp only
                rw [if_pos ⟨hcap.1, by
                  unfold Game.has_sheep_at
                  dsimp only
                  exact decide_eq_true hcap.2⟩]
                rw [hstate]
                dsimp only
                rw [List.set_set]
                conv_lhs => rw [show p1.row = g.sheep.getD p1.col 99 from hcap.2.symm]
                rw [set_getD_self]
              rw [hstep]
              obtain ⟨dd, ch1, hres, hch1⟩ := iht hmem'
                (cnt + (Game.moves n' false
                  { g with dragon := p1, sheep := g.sheep.set p1.col 99 } ch).1)
                p1 (Game.moves n' false
                  { g with dragon := p1, sheep := g.sheep.set p1.col 99 } ch).2.2 hrec.2
              refine ⟨dd, ch1, ?_, hch1⟩
              rw [hres, hrec.1, List.map_cons, List.sum_cons, if_pos hcap]
              simp [Nat.add_assoc]
            · have hedge : CallEdge g.board g.safe (false, p1, g.sheep)
                  (true, g.dragon, g.sheep) :=
                CallEdge.pred_plain g.dragon g.sheep p1 hp1 hcap
              obtain ⟨hinv', hlt⟩ := edge_measure _ _ hinv hedge
              dsimp only at hlt hinv'
              have hrec := IH n' (by omega) false { g with dragon := p1 } ch hinv'
                (by dsimp only; omega) hch
              dsimp only at hrec
              have hstate := moves_state_id n' false { g with dragon := p1 } ch
              have hstep : Game.dragon_step (fun g1 ch2 => Game.moves n' false g1 ch2)
                  (cnt, { g with dragon := dc }, ch) p1 =
                  (cnt + (Game.moves n' false { g with dragon := p1 } ch).1,
                   { g with dragon := p1 },
                   (Game.moves n' false { g with dragon := p1 } ch).2.2) := by
                unfold Game.dragon_step
                dsimp only
                rw [if_neg (fun hand => hcap ⟨hand.1, of_decide_eq_true hand.2⟩)]
                rw [hstate]
              rw [hstep]
              obtain ⟨dd, ch1, hres, hch1⟩ := iht hmem'
                (cnt + (Game.moves n' false { g with dragon := p1 } ch).1)
                p1 (Game.moves n' false { g with dragon := p1 } ch).2.2 hrec.2
              refine ⟨dd, ch1, ?_, hch1⟩
              rw [hres, hrec.1, List.map_cons, List.sum_cons, if_neg hcap]
              simp [Nat.add_assoc]
        obtain ⟨dd, ch1, hres0, hch1⟩ := hfold (g.board.dragon_move_list g.dragon)
          (fun p hp => hp) 0 g.dragon seen hgood
        have hres : (g.board.dragon_move_list g.dragon).foldl
            (Game.dragon_step fun g1 ch2 => Game.moves n' false g1 ch2) (0, g, seen) =
            (0 + ((g.board.dragon_move_list g.dragon).map fun p1 =>
                if g.board.is_blocked p1 = false ∧ g.sheep.getD p1.col 99 = p1.row then
                  tvalue g.board g.safe false p1 (g.sheep.set p1.col 99)
                else tvalue g.board g.safe false p1 g.sheep).sum,
             { g with dragon := dd }, ch1) := hres0
        simp only [hres]
        try dsimp only
        simp only [Nat.zero_add]
        have htv : tvalue g.board g.safe true g.dragon g.sheep =
            ((g.board.dragon_move_list g.dragon).map fun p1 =>
              if g.board.is_blocked p1 = false ∧ g.sheep.getD p1.col 99 = p1.row then
                tvalue g.board g.safe false p1 (g.sheep.set p1.col 99)
              else tvalue g.board g.safe false p1 g.sheep).sum :=
          tvalue_pred_unfold g.board g.safe g.dragon g.sheep hinv
        refine ⟨htv.symm, ?_⟩
        exact cache_good_insert _ _ _ _ _ hch1 hinv htv.symm

/-! ## The initial state -/

theorem inv_sheep_new (b : Board) : inv_sheep b (Game.mk_sheep b) := by
  constructor
  · simp [Game.mk_sheep]
  · intro c hc
    unfold Game.mk_sheep
    rw [getD_map_range _ _ _ _ hc]
    cases hf : (List.range b.height).find? (fun r => b.has_sheep_at ⟨r, c⟩) with
    | none => left; rfl
    | some r =>
      right
      have hm := List.mem_of_find?_eq_some hf
      simpa using List.mem_range.mp hm

theorem all99_getD (s : List Nat) (h : s.all (· == 99) = true) (i : Nat) :
    s.getD i 99 = 99 := by
  by_cases hi : i < s.length
  · have hx := List.all_eq_true.mp h s[i] (List.getElem_mem hi)
    rw [List.getD_eq_getElem?_getD, List.getElem?_eq_getElem hi]
    simpa using hx
  · rw [List.getD_eq_getElem?_getD, List.getElem?_eq_none (by omega)]
    rfl

/-- Behaviour of `find?` over the descending list `[h, h-1, ..., 1]` used by
`Game::new` for the safe thresholds. -/
theorem find_desc (p : Nat → Bool) : ∀ (h : Nat),
    ((((List.range h).reverse.map (· + 1)).find? fun r => p (r - 1)) = none ∧
      ∀ r < h, p r = false) ∨
    (∃ u, u < h ∧ p u = true ∧ (∀ r, u < r → r < h → p r = false) ∧
      (((List.range h).reverse.map (· + 1)).find? fun r => p (r - 1)) = some (u + 1)) := by
  intro h
  induction h with
  | zero => left; exact ⟨rfl, by omega⟩
  | succ h ih =>
    have hsplit : (List.range (h + 1)).reverse.map (· + 1) =
        (h + 1) :: ((List.range h).reverse.map (· + 1)) := by
      rw [List.range_succ, List.reverse_append]
      rfl
    rw [hsplit, List.find?_cons]
    cases hp : p (h + 1 - 1) with
    | true =>
      right
      refine ⟨h, by omega, by simpa using hp, by omega, rfl⟩
    | false =>
      rcases ih with ⟨hnone, hall⟩ | ⟨u, hu, hpu, hafter, hfind⟩
      · left
        refine ⟨hnone, ?_⟩
        intro r hr
        by_cases hrh : r = h
        · subst hrh; simpa using hp
        · exact hall r (by omega)
      · right
        refine ⟨u, by omega, hpu, ?_, hfind⟩
        intro r hur hrh
        by_cases hrh' : r = h
        · subst hrh'; simpa using hp
        · exact hafter r hur (by omega)

/-- What `Game::new` actually stores in `safe[c]`: one more than the deepest
unblocked row of the column, or `99` when the whole column is blocked. -/
theorem mk_safe_spec (b : Board) (c : Nat) (hc : c < b.width) :
    ((∀ r < b.height, b.is_blocked ⟨r, c⟩ = true) ∧ (Game.mk_safe b).getD c 99 = 99) ∨
    (∃ u, u < b.height ∧ b.is_blocked ⟨u, c⟩ = false ∧
      (∀ r, u < r → r < b.height → b.is_blocked ⟨r, c⟩ = true) ∧
      (Game.mk_safe b).getD c 99 = u + 1) := by
  have hval : (Game.mk_safe b).getD c 99 =
      ((((List.range b.height).reverse.map (· + 1)).find? fun r =>
        !b.is_blocked ⟨r - 1, c⟩).getD 99) := by
    unfold Game.mk_safe
    rw [getD_map_range _ _ _ _ hc]
  rcases find_desc (fun u => !b.is_blocked ⟨u, c⟩) b.height with ⟨hnone, hall⟩ |
    ⟨u, hu, hpu, hafter, hfind⟩
  · left
    constructor
    · intro r hr
      have := hall r hr
      simpa using this
    · rw [hval, hnone]
      rfl
  · right
    refine ⟨u, hu, by simpa using hpu, ?_, ?_⟩
    · intro r h1 h2
      have := hafter r h1 h2
      simpa using this
    · rw [hval, hfind]
      rfl

/-- Accessibility of the (invariant-restricted) call relation. -/
theorem edge_acc (b : Board) (safe : List Nat) (s : Bool × Pos × List Nat) :
    Acc (fun x y => inv_sheep b y.2.2 ∧ CallEdge b safe x y) s := by
  have main : ∀ (n : Nat) (s : Bool × Pos × List Nat), gmeasure b s.1 s.2.1 s.2.2 < n →
      Acc (fun x y => inv_sheep b y.2.2 ∧ CallEdge b safe x y) s := by
    intro n
    induction n with
    | zero => intro s hs; omega
    | succ n ihn =>
      intro s hs
      constructor
      intro t ht
      obtain ⟨_, hlt⟩ := edge_measure b safe ht.1 ht.2
      exact ihn t (by omega)
  exact main (gmeasure b s.1 s.2.1 s.2.2 + 1) s (by omega)

/-! ## Behaviour of the memoized sheep loop -/

theorem sheep_fold_skip_all (g : Game) (recurse : Game → Cache → Nat × Game × Cache)
    (l : List Nat)
    (h : ∀ c ∈ l, g.sheep.getD c 99 = 99 ∨
      ((⟨g.sheep.getD c 99 + 1, c⟩ : Pos) = g.dragon ∧
       g.board.is_blocked ⟨g.sheep.getD c 99 + 1, c⟩ = false))
    (cnt : Nat) (fl : Bool) (seen : Cache) :
    l.foldl (Game.sheep_step recurse) (cnt, fl, g, seen) = (cnt, fl, g, seen) := by
  induction l with
  | nil => rfl
  | cons c t ih =>
    rw [List.foldl_cons]
    have hstep : Game.sheep_step recurse (cnt, fl, g, seen) c = (cnt, fl, g, seen) := by
      unfold Game.sheep_step
      dsimp only
      by_cases h1 : g.sheep.getD c 99 = 99
      · rw [if_pos h1]
      · rcases h c (List.mem_cons_self c t) with h1' | h2
        · exact absurd h1' h1
        · rw [if_neg h1, if_pos h2]
    rw [hstep]
    exact ih fun c' hc' => h c' (List.mem_cons_of_mem c hc')

theorem sheep_fold_flag (g : Game) (recurse : Game → Cache → Nat × Game × Cache)
    (hrec : ∀ g1 ch, (recurse g1 ch).2.1 = g1) :
    ∀ (l : List Nat) (cnt : Nat) (fl : Bool) (seen : Cache),
      (l.foldl (Game.sheep_step recurse) (cnt, fl, g, seen)).2.1 =
        (fl || l.any (col_move g.board g.dragon g.sheep)) := by
  intro l
  induction l with
  | nil => intro cnt fl seen; simp
  | cons c t ih =>
    intro cnt fl seen
    rw [List.foldl_cons, List.any_cons]
    by_cases h1 : g.sheep.getD c 99 = 99
    · have hstep : Game.sheep_step recurse (cnt, fl, g, seen) c = (cnt, fl, g, seen) := by
        unfold Game.sheep_step
        dsimp only
        rw [if_pos h1]
      rw [hstep, ih, col_move_dead _ _ _ _ h1]
      simp
    · by_cases h2 : (⟨g.sheep.getD c 99 + 1, c⟩ : Pos) = g.dragon ∧
          g.board.is_blocked ⟨g.sheep.getD c 99 + 1, c⟩ = false
      · have hstep : Game.sheep_step recurse (cnt, fl, g, seen) c = (cnt, fl, g, seen) := by
          unfold Game.sheep_step
          dsimp only
          rw [if_neg h1, if_pos h2]
        rw [hstep, ih, col_move_skip _ _ _ _ h2]
        simp
      · by_cases h3 : g.sheep.getD c 99 + 1 = g.board.height ∨
            g.is_safe ⟨g.sheep.getD c 99 + 1, c⟩ = true
        · have hstep : Game.sheep_step recurse (cnt, fl, g, seen) c = (cnt, true, g, seen) := by
            unfold Game.sheep_step
            dsimp only
            rw [if_neg h1, if_neg h2, if_pos h3]
          rw [hstep, ih, col_move_live _ _ _ _ h1 h2]
          simp
        · have hstep : Game.sheep_step recurse (cnt, fl, g, seen) c =
              (cnt + (recurse { g with sheep := g.sheep.set c (g.sheep.getD c 99 + 1) } seen).1,
               true, g,
               (recurse { g with sheep := g.sheep.set c (g.sheep.getD c 99 + 1) } seen).2.2) := by
            unfold Game.sheep_step
            dsimp only
            rw [if_neg h1, if_neg h2, if_neg h3, hrec]
            dsimp only
            rw [List.set_set, set_getD_self]
          rw [hstep, ih, col_move_live _ _ _ _ h1 h2]
          simp

/-! ## Concrete boards used as witness inputs -/

/-- One column, two rows, top cell blocked, no sheep, dragon at the bottom. -/
def board_a : Board := ⟨1, 2, ⟨1, 0⟩, [false, false], [true, false]⟩

/-- Three by three, empty, dragon in the corner, no sheep at all. -/
def board_b : Board := ⟨3, 3, ⟨0, 0⟩, List.replicate 9 false, List.replicate 9 false⟩

/-- Two by two, one sheep in the corner opposite the dragon. -/
def board_c : Board := ⟨2, 2, ⟨1, 1⟩, [true, false, false, false], List.replicate 4 false⟩

/-- One column of three rows: sheep on top, the dragon sits on the blocked
middle cell, which is also the sheep's destination. -/
def board_f : Board := ⟨1, 3, ⟨1, 0⟩, [true, false, false], [false, true, false]⟩

/-- Like `board_f` but with the middle cell unblocked, so the overlap is the
illegal-move case. -/
def board_g : Board := ⟨1, 3, ⟨1, 0⟩, [true, false, false], [false, false, false]⟩

/-- One column of three rows: sheep on top, blocked middle cell, dragon at
the bottom (not on the destination). -/
def board_h : Board := ⟨1, 3, ⟨2, 0⟩, [true, false, false], [false, true, false]⟩

/-- One column of two rows: sheep on the bottom row (its next step leaves the
board), dragon on top. -/
def board_i : Board := ⟨1, 2, ⟨0, 0⟩, [false, true], [true, false]⟩

/-! ## The claims -/

/-- C1: in a sheep turn, a live column whose destination is not excluded by
the illegal-move rule but reaches the board bottom or the column's safe
threshold is absorbed silently: the prey is out of play for that branch in
the only observable sense — the column contributes no count, triggers no
recursive call (the step result is independent of the recursion argument),
and leaves state and memo table untouched — while still setting the
`any_move` flag, i.e. still counting as having some legal destination. -/
theorem c1_escape_rule (g : Game) (rec1 rec2 : Game → Cache → Nat × Game × Cache)
    (count : Nat) (any : Bool) (seen : Cache) (c : Nat)
    (hr : g.sheep.getD c 99 ≠ 99)
    (hni : ¬((⟨g.sheep.getD c 99 + 1, c⟩ : Pos) = g.dragon ∧
      g.board.is_blocked ⟨g.sheep.getD c 99 + 1, c⟩ = false))
    (hesc : g.sheep.getD c 99 + 1 = g.board.height ∨
      g.is_safe ⟨g.sheep.getD c 99 + 1, c⟩ = true) :
    Game.sheep_step rec1 (count, any, g, seen) c = (count, true, g, seen) ∧
    Game.sheep_step rec1 (count, any, g, seen) c =
      Game.sheep_step rec2 (count, any, g, seen) c := by
  have h : ∀ rec : Game → Cache → Nat × Game × Cache,
      Game.sheep_step rec (count, any, g, seen) c = (count, true, g, seen) := by
    intro rec
    unfold Game.sheep_step
    dsimp only
    rw [if_neg hr, if_neg hni, if_pos hesc]
  exact ⟨h rec1, (h rec1).trans (h rec2).symm⟩

/-- Witness for C1 on `board_i`: the sheep's next row equals the height, the
step sets the flag, adds nothing, and ignores the recursion. -/
theorem c1_witness :
    Game.sheep_step (fun g1 ch => (7, g1, ch)) (5, false, Game.new board_i, []) 0 =
      (5, true, Game.new board_i, []) ∧
    Game.sheep_step (fun g1 ch => (7, g1, ch)) (5, false, Game.new board_i, []) 0 =
      Game.sheep_step (fun g1 ch => (9, g1, ch)) (5, false, Game.new board_i, []) 0 :=
  c1_escape_rule (Game.new board_i) (fun g1 ch => (7, g1, ch)) (fun g1 ch => (9, g1, ch))
    5 false [] 0 (by decide) (by decide) (by decide)

/-- C2 (counterexample): on the one-column board with the top cell blocked
and the bottom cell free, `Game::new` stores 2 while the claimed "smallest
row index whose whole suffix is unblocked" is 1. -/
theorem c2_counterexample :
    (Game.new board_a).safe.getD 0 99 = 2 ∧ spec_safe_threshold board_a 0 = 1 ∧
    (Game.new board_a).safe.getD 0 99 ≠ spec_safe_threshold board_a 0 := by
  decide

/-- C2 (amended): the safe threshold stored at construction is one more than
the deepest unblocked row of the column — every row strictly below it is
blocked — and 99 when the whole column is blocked. -/
theorem c2_safe_threshold (b : Board) (c : Nat) (hc : c < b.width) :
    ((∀ r < b.height, b.is_blocked ⟨r, c⟩ = true) ∧ (Game.new b).safe.getD c 99 = 99) ∨
    (∃ u, u < b.height ∧ b.is_blocked ⟨u, c⟩ = false ∧
      (∀ r, u < r → r < b.height → b.is_blocked ⟨r, c⟩ = true) ∧
      (Game.new b).safe.getD c 99 = u + 1) :=
  mk_safe_spec b c hc

/-- Witness for C2 (amended) on column 0 of `board_a`. -/
theorem c2_witness :
    ((∀ r < board_a.height, board_a.is_blocked ⟨r, 0⟩ = true) ∧
      (Game.new board_a).safe.getD 0 99 = 99) ∨
    (∃ u, u < board_a.height ∧ board_a.is_blocked ⟨u, 0⟩ = false ∧
      (∀ r, u < r → r < board_a.height → board_a.is_blocked ⟨r, 0⟩ = true) ∧
      (Game.new board_a).safe.getD 0 99 = u + 1) :=
  c2_safe_threshold board_a 0 (by decide)

/-- C3 (counterexample): `dragon_moves` has no terminal check; invoked on the
all-removed state of `board_b` it returns its number of knight moves (2),
not 1. -/
theorem c3_counterexample :
    (Game.new board_b).sheep.all (· == 99) = true ∧
    (Game.moves 5 true (Game.new board_b) []).1 = 2 ∧
    (Game.moves 5 true (Game.new board_b) []).1 ≠ 1 := by
  decide

/-- C3 (amended): a terminal sheep turn returns exactly 1 and leaves the
memo table untouched; a dragon turn invoked on a terminal state returns the
number of its in-bounds knight moves (each branch's sheep turn returning
1). -/
theorem c3_terminal_counts (g : Game) (n : Nat)
    (hterm : g.sheep.all (· == 99) = true) (hh : g.board.height ≤ 99) :
    Game.moves (n + 1) false g [] = (1, g, []) ∧
    (Game.moves (n + 2) true g []).1 = (g.board.dragon_move_list g.dragon).length := by
  have hsheep : ∀ g1 : Game, g1.sheep = g.sheep →
      Game.moves (n + 1) false g1 [] = (1, g1, []) := by
    intro g1 h1
    rw [Game.moves]
    have hlk : cache_lookup [] (g1.cache_key false) = none := rfl
    simp only [hlk]
    rw [if_pos (by rw [h1]; exact hterm)]
  refine ⟨hsheep g rfl, ?_⟩
  rw [Game.moves]
  have hlk : cache_lookup [] (g.cache_key true) = none := rfl
  simp only [hlk]
  have hfold : ∀ (l : List Pos), (∀ p ∈ l, p.row < g.board.height) →
      ∀ (cnt : Nat) (dc : Pos),
      ∃ dd, l.foldl (Game.dragon_step fun g1 ch2 => Game.moves (n + 1) false g1 ch2)
          (cnt, { g with dragon := dc }, []) =
        (cnt + l.length, { g with dragon := dd }, []) := by
    intro l
    induction l with
    | nil => intro _ cnt dc; exact ⟨dc, by simp⟩
    | cons p1 t ih =>
      intro hmem cnt dc
      have hrow := hmem p1 (List.mem_cons_self p1 t)
      rw [List.foldl_cons]
      have hstep : Game.dragon_step (fun g1 ch2 => Game.moves (n + 1) false g1 ch2)
          (cnt, { g with dragon := dc }, []) p1 = (cnt + 1, { g with dragon := p1 }, []) := by
        unfold Game.dragon_step
        dsimp only
        rw [if_neg (fun hand => by
          have hs := of_decide_eq_true hand.2
          dsimp only at hs
          rw [all99_getD g.sheep hterm p1.col] at hs
          omega)]
        rw [hsheep { g with dragon := p1 } rfl]
      rw [hstep]
      obtain ⟨dd, hres⟩ := ih (fun p hp => hmem p (List.mem_cons_of_mem p1 hp)) (cnt + 1) p1
      refine ⟨dd, ?_⟩
      rw [hres, List.length_cons]
      congr 1
      omega
  obtain ⟨dd, hres0⟩ := hfold (g.board.dragon_move_list g.dragon)
    (fun p hp => (mem_dragon_move_list hp).1) 0 g.dragon
  have hres : (g.board.dragon_move_list g.dragon).foldl
      (Game.dragon_step fun g1 ch2 => Game.moves (n + 1) false g1 ch2) (0, g, []) =
      (0 + (g.board.dragon_move_list g.dragon).length, { g with dragon := dd }, []) := hres0
  simp only [hres]
  try dsimp only
  simp

/-- Witness for C3 (amended) on `board_b`. -/
theorem c3_witness :
    Game.moves 4 false (Game.new board_b) [] = (1, Game.new board_b, []) ∧
    (Game.moves 5 true (Game.new board_b) []).1 =
      ((Game.new board_b).board.dragon_move_list (Game.new board_b).dragon).length :=
  c3_terminal_counts (Game.new board_b) 3 (by decide) (by decide)

/-- C4: in a non-terminal sheep turn (with no cached entry for the state),
if every live column is excluded by the illegal-move rule the turn returns
exactly the dragon turn's value on the same state and memo table (the
double move); and as soon as some live column is not excluded, the result
is the column loop's total alone — the double-move branch is not taken. -/
theorem c4_double_move (g : Game) (n : Nat) (seen : Cache)
    (hmiss : cache_lookup seen (g.cache_key false) = none)
    (hnt : ¬(g.sheep.all (· == 99) = true)) :
    ((∀ c, c < g.board.width → g.sheep.getD c 99 ≠ 99 →
        ((⟨g.sheep.getD c 99 + 1, c⟩ : Pos) = g.dragon ∧
         g.board.is_blocked ⟨g.sheep.getD c 99 + 1, c⟩ = false)) →
      (Game.moves (n + 1) false g seen).1 = (Game.moves n true g seen).1) ∧
    ((∃ c, c < g.board.width ∧ g.sheep.getD c 99 ≠ 99 ∧
        ¬((⟨g.sheep.getD c 99 + 1, c⟩ : Pos) = g.dragon ∧
          g.board.is_blocked ⟨g.sheep.getD c 99 + 1, c⟩ = false)) →
      Game.moves (n + 1) false g seen =
        ((Game.sheep_loop n g seen).1, g,
         cache_insert (Game.sheep_loop n g seen).2.2.2 (g.cache_key false)
           (Game.sheep_loop n g seen).1)) := by
  constructor
  · intro hall
    rw [Game.moves]
    simp only [hmiss]
    rw [if_neg hnt]
    have hskip := sheep_fold_skip_all g (fun g1 ch2 => Game.moves n true g1 ch2)
      (List.range g.board.width)
      (fun c hc => by
        by_cases h1 : g.sheep.getD c 99 = 99
        · exact Or.inl h1
        · exact Or.inr (hall c (List.mem_range.mp hc) h1)) 0 false seen
    simp only [hskip]
    try dsimp only
    simp
  · rintro ⟨c, hcw, hlive, hnskip⟩
    rw [Game.moves]
    simp only [hmiss]
    rw [if_neg hnt]
    have hflag : ((List.range g.board.width).foldl
        (Game.sheep_step fun g1 ch2 => Game.moves n true g1 ch2)
        (0, false, g, seen)).2.1 = true := by
      rw [sheep_fold_flag g _ (fun g1 ch => moves_state_id n true g1 ch)]
      have hx : (List.range g.board.width).any (col_move g.board g.dragon g.sheep) = true := by
        rw [List.any_eq_true]
        exact ⟨c, List.mem_range.mpr hcw, col_move_live _ _ _ _ hlive hnskip⟩
      rw [hx]
      rfl
    have hstate := foldl_state_const (Game.sheep_step fun g1 ch2 => Game.moves n true g1 ch2)
      (fun acc c' => sheep_step_state _ (fun g1 ch => moves_state_id n true g1 ch) acc c')
      (List.range g.board.width) (0, false, g, seen)
    try dsimp only
    rw [hflag]
    try dsimp only
    simp only [if_true]
    rw [show ((List.range g.board.width).foldl
        (Game.sheep_step fun g1 ch2 => Game.moves n true g1 ch2)
        (0, false, g, seen)) = Game.sheep_loop n g seen from rfl] at hstate ⊢
    rw [hstate]

/-- Witness for C4: on `board_g` the single sheep is blocked by the dragon on
an unblocked cell (double move); on `board_c` it is free to move (no double
move). -/
theorem c4_witness :
    (Game.moves 10 false (Game.new board_g) []).1 =
      (Game.moves 9 true (Game.new board_g) []).1 ∧
    Game.moves 10 false (Game.new board_c) [] =
      ((Game.sheep_loop 9 (Game.new board_c) []).1, Game.new board_c,
       cache_insert (Game.sheep_loop 9 (Game.new board_c) []).2.2.2
         ((Game.new board_c).cache_key false) (Game.sheep_loop 9 (Game.new board_c) []).1) :=
  ⟨(c4_double_move (Game.new board_g) 9 [] rfl (by decide)).1 (by decide),
   (c4_double_move (Game.new board_c) 9 [] rfl (by decide)).2
     ⟨0, by decide, by decide, by decide⟩⟩

/-- C5: a live column whose destination cell coincides with the dragon is
skipped entirely — count, flag, state and memo table unchanged — exactly
when that cell is unblocked; when the cell is blocked the overlap does not
disable the move: the flag is set and the count receives the normal
recursive branch (or the silent escape) as for any ordinary move. -/
theorem c5_illegal_move_rule (g : Game) (rec1 : Game → Cache → Nat × Game × Cache)
    (count : Nat) (any : Bool) (seen : Cache) (c : Nat)
    (hr : g.sheep.getD c 99 ≠ 99)
    (hd : (⟨g.sheep.getD c 99 + 1, c⟩ : Pos) = g.dragon) :
    (g.board.is_blocked ⟨g.sheep.getD c 99 + 1, c⟩ = false →
      Game.sheep_step rec1 (count, any, g, seen) c = (count, any, g, seen)) ∧
    (g.board.is_blocked ⟨g.sheep.getD c 99 + 1, c⟩ = true →
      (Game.sheep_step rec1 (count, any, g, seen) c).2.1 = true ∧
      (Game.sheep_step rec1 (count, any, g, seen) c).1 =
        count + (if g.sheep.getD c 99 + 1 = g.board.height ∨
            g.is_safe ⟨g.sheep.getD c 99 + 1, c⟩ = true then 0
          else (rec1 { g with sheep := g.sheep.set c (g.sheep.getD c 99 + 1) } seen).1)) := by
  constructor
  · intro hb
    unfold Game.sheep_step
    dsimp only
    rw [if_neg hr, if_pos ⟨hd, hb⟩]
  · intro hb
    have hni : ¬((⟨g.sheep.getD c 99 + 1, c⟩ : Pos) = g.dragon ∧
        g.board.is_blocked ⟨g.sheep.getD c 99 + 1, c⟩ = false) := by
      rintro ⟨_, hbf⟩
      rw [hb] at hbf
      cases hbf
    by_cases h3 : g.sheep.getD c 99 + 1 = g.board.height ∨
        g.is_safe ⟨g.sheep.getD c 99 + 1, c⟩ = true
    · constructor
      · unfold Game.sheep_step
        dsimp only
        rw [if_neg hr, if_neg hni, if_pos h3]
      · unfold Game.sheep_step
        dsimp only
        rw [if_neg hr, if_neg hni, if_pos h3, if_pos h3]
        simp
    · constructor
      · unfold Game.sheep_step
        dsimp only
        rw [if_neg hr, if_neg hni, if_neg h3]
      · unfold Game.sheep_step
        dsimp only
        rw [if_neg hr, if_neg hni, if_neg h3, if_neg h3]

/-- Witness for C5: on `board_f` the overlapped destination is blocked and
the move proceeds; on `board_g` it is unblocked and the column is skipped. -/
theorem c5_witness :
    ((Game.sheep_step (fun g1 ch => (11, g1, ch)) (3, false, Game.new board_f, []) 0).2.1 =
        true ∧
      (Game.sheep_step (fun g1 ch => (11, g1, ch)) (3, false, Game.new board_f, []) 0).1 =
        3 + 11) ∧
    Game.sheep_step (fun g1 ch => (11, g1, ch)) (3, false, Game.new board_g, []) 0 =
      (3, false, Game.new board_g, []) :=
  ⟨(c5_illegal_move_rule (Game.new board_f) (fun g1 ch => (11, g1, ch)) 3 false [] 0
      (by decide) (by decide)).2 (by decide),
   (c5_illegal_move_rule (Game.new board_g) (fun g1 ch => (11, g1, ch)) 3 false [] 0
      (by decide) (by decide)).1 (by decide)⟩

/-- C6: a dragon turn (on a fresh key) sums, over the knight-move list in its
fixed order, the sheep-turn counts of the moved states, capturing exactly
when the destination is unblocked and holds a live sheep; the knight-move
list has at most 8 entries and consists precisely of the 8 offsets applied
to the dragon's position and filtered to the board. -/
theorem c6_dragon_turn (g : Game) (n : Nat) (seen : Cache)
    (hinv : inv_sheep g.board g.sheep)
    (hn : gmeasure g.board true g.dragon g.sheep < n)
    (hgood : cache_good g.board g.safe seen) :
    (Game.moves n true g seen).1 =
      ((g.board.dragon_move_list g.dragon).map fun p1 =>
        if g.board.is_blocked p1 = false ∧ g.sheep.getD p1.col 99 = p1.row then
          tvalue g.board g.safe false p1 (g.sheep.set p1.col 99)
        else tvalue g.board g.safe false p1 g.sheep).sum ∧
    (g.board.dragon_move_list g.dragon).length ≤ 8 ∧
    ∀ p : Pos, p ∈ g.board.dragon_move_list g.dragon ↔
      ∃ m ∈ knight_offsets, (p.col : Int) = (g.dragon.col : Int) + m.1 ∧
        (p.row : Int) = (g.dragon.row : Int) + m.2 ∧ p.col < g.board.width ∧
        p.row < g.board.height := by
  refine ⟨?_, dragon_move_list_length g.board g.dragon,
    fun p => dragon_move_list_iff g.board g.dragon p⟩
  rw [(moves_correct n true g seen hinv hn hgood).1]
  exact tvalue_pred_unfold g.board g.safe g.dragon g.sheep hinv

/-- Witness for C6 on `board_a` (the dragon there has no knight move, so the
sum is empty). -/
theorem c6_witness :
    (Game.moves 4 true (Game.new board_a) []).1 =
      (((Game.new board_a).board.dragon_move_list (Game.new board_a).dragon).map fun p1 =>
        if (Game.new board_a).board.is_blocked p1 = false ∧
            (Game.new board_a).sheep.getD p1.col 99 = p1.row then
          tvalue (Game.new board_a).board (Game.new board_a).safe false p1
            ((Game.new board_a).sheep.set p1.col 99)
        else tvalue (Game.new board_a).board (Game.new board_a).safe false p1
          (Game.new board_a).sheep).sum ∧
    ((Game.new board_a).board.dragon_move_list (Game.new board_a).dragon).length ≤ 8 ∧
    ∀ p : Pos, p ∈ (Game.new board_a).board.dragon_move_list (Game.new board_a).dragon ↔
      ∃ m ∈ knight_offsets,
        (p.col : Int) = ((Game.new board_a).dragon.col : Int) + m.1 ∧
        (p.row : Int) = ((Game.new board_a).dragon.row : Int) + m.2 ∧
        p.col < (Game.new board_a).board.width ∧
        p.row < (Game.new board_a).board.height :=
  c6_dragon_turn (Game.new board_a) 4 [] (by decide) (by decide) (cache_good_nil _ _)

/-- C7: with a correct memo table and enough fuel on both sides, the
memoized search returns exactly the count of the cache-free recursion, and
running it again on the table it produced returns the same count. -/
theorem c7_cache_equivalence (g : Game) (ph : Bool) (n m : Nat) (seen : Cache)
    (hinv : inv_sheep g.board g.sheep) (hgood : cache_good g.board g.safe seen)
    (hn : gmeasure g.board ph g.dragon g.sheep < n)
    (hm : gmeasure g.board ph g.dragon g.sheep < m) :
    (Game.moves n ph g seen).1 = plain_moves g.board g.safe m ph g.dragon g.sheep ∧
    (Game.moves m ph g (Game.moves n ph g seen).2.2).1 = (Game.moves n ph g seen).1 := by
  have h1 := moves_correct n ph g seen hinv hn hgood
  have h2 := moves_correct m ph g (Game.moves n ph g seen).2.2 hinv hm h1.2
  exact ⟨h1.1.trans (plain_eq_tvalue g.board g.safe m ph g.dragon g.sheep hinv hm).symm,
    h2.1.trans h1.1.symm⟩

/-- Witness for C7 on `board_c`. -/
theorem c7_witness :
    (Game.moves 20 false (Game.new board_c) []).1 =
      plain_moves (Game.new board_c).board (Game.new board_c).safe 20 false
        (Game.new board_c).dragon (Game.new board_c).sheep ∧
    (Game.moves 20 false (Game.new board_c)
        ((Game.moves 20 false (Game.new board_c) []).2.2)).1 =
      (Game.moves 20 false (Game.new board_c) []).1 :=
  c7_cache_equivalence (Game.new board_c) false 20 20 [] (by decide) (cache_good_nil _ _)
    (by decide) (by decide)

/-- C8: every recursive call strictly decreases the measure `gmeasure` and
preserves the state invariant, so the call relation is well founded (no
state can recur along a chain of recursive calls) and
`count_winning_games` is the stable value of the search at every
sufficiently large fuel. -/
theorem c8_termination (b : Board) (safe : List Nat) (s t : Bool × Pos × List Nat)
    (hinv : inv_sheep b s.2.2) (he : CallEdge b safe t s) :
    inv_sheep b t.2.2 ∧
    gmeasure b t.1 t.2.1 t.2.2 < gmeasure b s.1 s.2.1 s.2.2 ∧
    Acc (fun x y => inv_sheep b y.2.2 ∧ CallEdge b safe x y) s ∧
    ∀ n1, gmeasure b false b.dragon (Game.mk_sheep b) < n1 →
      (Game.moves n1 false (Game.new b) []).1 = (Game.new b).count_winning_games := by
  obtain ⟨h1, h2⟩ := edge_measure b safe hinv he
  refine ⟨h1, h2, edge_acc b safe s, ?_⟩
  intro n1 hn1
  have ha := moves_correct n1 false (Game.new b) [] (inv_sheep_new b) hn1 (cache_good_nil _ _)
  have hb := moves_correct (gmeasure b false b.dragon (Game.mk_sheep b) + 1) false
    (Game.new b) [] (inv_sheep_new b)
    (by show gmeasure b false b.dragon (Game.mk_sheep b) <
      gmeasure b false b.dragon (Game.mk_sheep b) + 1; omega) (cache_good_nil _ _)
  exact ha.1.trans hb.1.symm

/-- Witness for C8: a concrete sheep-move edge on `board_c`. -/
theorem c8_witness :
    inv_sheep board_c [1, 99] ∧
    gmeasure board_c true ⟨1, 1⟩ [1, 99] < gmeasure board_c false ⟨1, 1⟩ [0, 99] ∧
    Acc (fun x y => inv_sheep board_c y.2.2 ∧ CallEdge board_c (Game.mk_safe board_c) x y)
      (false, ⟨1, 1⟩, [0, 99]) ∧
    (∀ n1, gmeasure board_c false board_c.dragon (Game.mk_sheep board_c) < n1 →
      (Game.moves n1 false (Game.new board_c) []).1 =
        (Game.new board_c).count_winning_games) :=
  c8_termination board_c (Game.mk_safe board_c) (false, ⟨1, 1⟩, [0, 99])
    (true, ⟨1, 1⟩, [1, 99]) (by decide)
    (CallEdge.prey_branch ⟨1, 1⟩ [0, 99] 0 (by decide) (by decide) (by decide) (by decide)
      (by decide))

/-- C9: after any sheep turn or dragon turn, the game record — dragon
position and sheep vector included — is exactly what it was at entry; only
the memo table may differ. -/
theorem c9_restoration (n : Nat) (g : Game) (seen : Cache) :
    (Game.sheep_moves n g seen).2.1 = g ∧ (Game.dragon_moves n g seen).2.1 = g :=
  ⟨moves_state_id n false g seen, moves_state_id n true g seen⟩

/-- C10: a sheep on (or moving onto) a blocked cell is immune: the sheep
turn moves a non-overlapped live column into its destination without any
test on that cell's blockedness (the statement carries no hypothesis about
it, and the witness exercises a blocked destination), and a dragon turn
whose destination is blocked never removes a sheep — the recursion proceeds
with the sheep vector untouched. -/
theorem c10_blocked_cell_immunity (g : Game) (rec1 : Game → Cache → Nat × Game × Cache)
    (count : Nat) (any : Bool) (seen : Cache) (c : Nat) (p1 : Pos) :
    (g.sheep.getD c 99 ≠ 99 →
      (⟨g.sheep.getD c 99 + 1, c⟩ : Pos) ≠ g.dragon →
      ¬(g.sheep.getD c 99 + 1 = g.board.height ∨
        g.is_safe ⟨g.sheep.getD c 99 + 1, c⟩ = true) →
      Game.sheep_step rec1 (count, any, g, seen) c =
        (count + (rec1 { g with sheep := g.sheep.set c (g.sheep.getD c 99 + 1) } seen).1,
         true,
         { (rec1 { g with sheep := g.sheep.set c (g.sheep.getD c 99 + 1) } seen).2.1 with
             sheep := (rec1 { g with sheep := g.sheep.set c (g.sheep.getD c 99 + 1) }
               seen).2.1.sheep.set c (g.sheep.getD c 99) },
         (rec1 { g with sheep := g.sheep.set c (g.sheep.getD c 99 + 1) } seen).2.2)) ∧
    (g.board.is_blocked p1 = true →
      Game.dragon_step rec1 (count, g, seen) p1 =
        (count + (rec1 { g with dragon := p1 } seen).1,
         (rec1 { g with dragon := p1 } seen).2.1,
         (rec1 { g with dragon := p1 } seen).2.2)) := by
  constructor
  · intro hr hd h3
    unfold Game.sheep_step
    dsimp only
    rw [if_neg hr, if_neg (fun hand => hd hand.1), if_neg h3]
  · intro hb
    unfold Game.dragon_step
    dsimp only
    rw [if_neg (fun hand => by
      have h := hand.1
      rw [hb] at h
      exact Bool.noConfusion h)]

/-- Witness for C10 on `board_h`: the sheep walks onto the blocked middle
cell, and the dragon landing on that blocked cell captures nothing. -/
theorem c10_witness :
    Game.sheep_step (fun g1 ch => (13, g1, ch)) (2, false, Game.new board_h, []) 0 =
      (2 + 13, true, Game.new board_h, []) ∧
    Game.dragon_step (fun g1 ch => (13, g1, ch)) (2, Game.new board_h, []) ⟨1, 0⟩ =
      (2 + 13, { Game.new board_h with dragon := ⟨1, 0⟩ }, []) :=
  ⟨(c10_blocked_cell_immunity (Game.new board_h) (fun g1 ch => (13, g1, ch)) 2 false [] 0
      ⟨1, 0⟩).1 (by decide) (by decide) (by decide),
   (c10_blocked_cell_immunity (Game.new board_h) (fun g1 ch => (13, g1, ch)) 2 false [] 0
      ⟨1, 0⟩).2 (by decide)⟩

end Day10
